import Mathlib

/-!
Shallow embedding of the PSI transfer reallocation engine
(`backend/app/services/transfer_logic.py`) and of the reallocation policy
store (`backend/app/services/reallocation_policy.py`).

Conventions of the embedding:
* Python `Decimal` values become `ℚ` (exact arithmetic; the source only uses
  `+ - * /`, comparisons, `min`, and `quantize` to whole units, on amounts far
  below `Decimal`'s 28-digit context, so context rounding never fires there).
* Python dicts become association lists with first-occurrence key position and
  last-write-wins value (`dput`), mirroring CPython's insertion-order
  semantics; dict iteration is list iteration.
* `list.sort(key=..., reverse=...)` (a stable sort) becomes a stable insertion
  sort (`sortDescBy` / `sortAscBy`).
* Logging calls (`logger.info`, `bucket_attempts`, `blocked_reasons`,
  `_log_fair_share_outcome`, the `allocated` dict) do not influence the
  returned moves and are omitted.
* The two `while` loops whose trip counts are value-dependent
  (`apply_adjustment`'s unit redistribution and the inter-warehouse donor
  consumption) are written with an explicit fuel that dominates their actual
  trip count; the fuel-exhausted branch returns the state unchanged and is
  never reached for the fuels supplied.
-/

namespace PSI

/-- `PolicyRoundingMode = Literal["floor", "round", "ceil"]`. -/
inductive RoundingMode where
  | floor
  | round
  | ceil
deriving DecidableEq

/-- `PolicyFairShareMode = Literal["off", "equalize_ratio_closing", "equalize_ratio_start"]`. -/
inductive FairShareMode where
  | off
  | equalize_ratio_closing
  | equalize_ratio_start
deriving DecidableEq

/-- `ReallocationPolicyData` from `reallocation_policy.py` (lines 17-27).
Note: the dataclass has no `deficit_basis` field. -/
structure ReallocationPolicyData where
  take_from_other_main : Bool
  rounding_mode : RoundingMode
  allow_overfill : Bool
  fair_share_mode : FairShareMode
  updated_at : Option Nat
  updated_by : Option String
deriving DecidableEq

/-- `MatrixRowData` from `transfer_logic.py`. -/
structure MatrixRowData where
  sku_code : String
  sku_name : Option String
  warehouse_name : String
  channel : String
  stock_at_anchor : ℚ
  inbound_qty : ℚ
  outbound_qty : ℚ
  stock_closing : ℚ
  stdstock : ℚ
  gap : ℚ
  move : ℚ
  stock_fin : ℚ
deriving DecidableEq

/-- `RecommendedMove` from `transfer_logic.py`. -/
structure RecommendedMove where
  sku_code : String
  from_warehouse : String
  from_channel : String
  to_warehouse : String
  to_channel : String
  qty : ℚ
  reason : String
deriving DecidableEq

/-- `_CellState` from `transfer_logic.py` (lines 54-100): the per-cell mutable
bookkeeping record.  `surplus_remaining` is initialised to `max gap 0` by
`__init__`; the engine constructs cells with clamped stock figures. -/
structure CellState where
  stock_at_anchor : ℚ
  stdstock : ℚ
  gap : ℚ
  stock_closing : ℚ
  surplus_remaining : ℚ
  allocated_out : ℚ
  allocated_in : ℚ
deriving DecidableEq

/-- `_CellState.__init__` (the `surplus = gap if gap > ZERO else ZERO` clamp). -/
def CellState.init (anchor std gap closing : ℚ) : CellState :=
  { stock_at_anchor := anchor
    stdstock := std
    gap := gap
    stock_closing := closing
    surplus_remaining := if gap > 0 then gap else 0
    allocated_out := 0
    allocated_in := 0 }

/-- `_CellState.available_surplus`. -/
def CellState.available_surplus (c : CellState) : ℚ :=
  let stock_remaining := c.stock_at_anchor - c.allocated_out
  if stock_remaining ≤ 0 then 0
  else if c.surplus_remaining ≤ 0 then 0
  else min c.surplus_remaining stock_remaining

/-- `_CellState.allocate`. -/
def CellState.allocate (c : CellState) (qty : ℚ) : CellState :=
  { c with
    allocated_out := c.allocated_out + qty
    surplus_remaining :=
      if c.surplus_remaining - qty > 0 then c.surplus_remaining - qty else 0 }

/-- `_CellState.receive`. -/
def CellState.receive (c : CellState) (qty : ℚ) : CellState :=
  { c with allocated_in := c.allocated_in + qty }

/-- `_CellState.remaining_capacity`. -/
def CellState.remaining_capacity (c : CellState) : ℚ :=
  let capacity := c.stdstock - (c.stock_closing + c.allocated_in)
  if capacity > 0 then capacity else 0

/-- `QUANT = Decimal("0.000001")`. -/
def QUANT : ℚ := 1 / 1000000

/-- `x.quantize(MOVE_UNIT, rounding=ROUND_FLOOR)`. -/
def qfloor (q : ℚ) : ℚ := (⌊q⌋ : ℤ)

/-- `x.quantize(MOVE_UNIT, rounding=ROUND_CEILING)`. -/
def qceil (q : ℚ) : ℚ := (⌈q⌉ : ℤ)

/-- `x.quantize(MOVE_UNIT, rounding=ROUND_HALF_UP)` for the non-negative
amounts the engine feeds it (half away from zero = half up there). -/
def qhalfup (q : ℚ) : ℚ := (⌊q + 1 / 2⌋ : ℤ)

/-- `_round_quantity` (lines 117-124). -/
def round_quantity (qty : ℚ) (mode : RoundingMode) : ℚ :=
  if qty ≤ 0 then 0
  else
    match mode with
    | .floor => qfloor qty
    | .ceil => qceil qty
    | .round => qhalfup qty

/-! ### Python-dict association lists -/

/-- Python dict lookup: value of the first (unique, in real dicts) matching key. -/
def dget {κ α : Type} [DecidableEq κ] : List (κ × α) → κ → Option α
  | [], _ => none
  | (k', v) :: t, k => if k' = k then some v else dget t k

/-- Python dict assignment `d[k] = v`: update the value in place when the key
is present (keeping its position), append otherwise. -/
def dput {κ α : Type} [DecidableEq κ] : List (κ × α) → κ → α → List (κ × α)
  | [], k, v => [(k, v)]
  | (k', v') :: t, k, v =>
    if k' = k then (k', v) :: t else (k', v') :: dput t k v

/-- Update the value stored at a key (no-op when the key is absent). -/
def dmod {κ α : Type} [DecidableEq κ] : List (κ × α) → κ → (α → α) → List (κ × α)
  | [], _, _ => []
  | (k', v) :: t, k, f =>
    if k' = k then (k', f v) :: t else (k', v) :: dmod t k f

/-- The association list has pairwise-distinct keys (always true of lists that
model Python dicts). -/
def KeysNodup {κ α : Type} (l : List (κ × α)) : Prop :=
  (l.map Prod.fst).Nodup

/-! ### Stable sorting (Python `list.sort` / `sorted`) -/

/-- Stable insert for descending order: the new element goes after every
element with a key `≥` its own. -/
def insDesc {α : Type} (f : α → ℚ) (x : α) : List α → List α
  | [] => [x]
  | y :: t => if f x ≤ f y then y :: insDesc f x t else x :: y :: t

/-- `sorted(l, key=f, reverse=True)` (stable). -/
def sortDescBy {α : Type} (f : α → ℚ) (l : List α) : List α :=
  l.foldl (fun acc x => insDesc f x acc) []

/-- Stable insert for ascending order. -/
def insAsc {α : Type} (f : α → ℚ) (x : α) : List α → List α
  | [] => [x]
  | y :: t => if f y ≤ f x then y :: insAsc f x t else x :: y :: t

/-- `sorted(l, key=f)` (stable). -/
def sortAscBy {α : Type} (f : α → ℚ) (l : List α) : List α :=
  l.foldl (fun acc x => insAsc f x acc) []

/-! ### Grouping the input rows (`recommend_plan_lines`, lines 142-151) -/

/-- The warehouse/channel key of a cell. -/
abbrev Key := String × String

/-- One row's `_CellState` as built at lines 146-151 (stock figures clamped at
zero, `gap` kept signed). -/
def rowCell (r : MatrixRowData) : CellState :=
  CellState.init
    (if r.stock_at_anchor > 0 then r.stock_at_anchor else 0)
    (if r.stdstock > 0 then r.stdstock else 0)
    r.gap
    (if r.stock_closing > 0 then r.stock_closing else 0)

/-- One iteration of the row-grouping loop: `rows_by_sku.setdefault(...)`
followed by `sku_cells[key] = _CellState(...)`. -/
def insertRow (acc : List (String × List (Key × CellState))) (r : MatrixRowData) :
    List (String × List (Key × CellState)) :=
  let inner := (dget acc r.sku_code).getD []
  dput acc r.sku_code (dput inner (r.warehouse_name, r.channel) (rowCell r))

/-- `rows_by_sku` as built by lines 142-151. -/
def buildCells (rows : List MatrixRowData) : List (String × List (Key × CellState)) :=
  rows.foldl insertRow []

/-! ### Greedy strategy (`fair_share_mode = "off"`, lines 155-324) -/

/-- The per-SKU engine state: the mutable `_CellState` dict plus the
`recommendations` accumulator. -/
structure EngSt where
  cells : List (Key × CellState)
  recs : List RecommendedMove
deriving DecidableEq

/-- `allocate_from_bucket` (lines 212-289).  Returns the `True`/`False` flag,
the updated state and the updated `shortage_remaining`. -/
def allocFromBucket (p : ReallocationPolicyData) (sku toWh toCh reason : String) :
    List Key → EngSt → ℚ → Bool × EngSt × ℚ
  | [], st, sr => (true, st, sr)
  | d :: rest, st, sr =>
    if sr ≤ 0 then (true, st, sr)
    else
      match dget st.cells d, dget st.cells (toWh, toCh) with
      | some donorSt, some recvSt =>
        let available := donorSt.available_surplus
        if available ≤ 0 then allocFromBucket p sku toWh toCh reason rest st sr
        else if p.allow_overfill = false ∧ recvSt.remaining_capacity ≤ 0 then
          (false, st, sr)
        else
          let room : Option ℚ :=
            if p.allow_overfill then none else some recvSt.remaining_capacity
          let raw0 := min available sr
          let raw := match room with | none => raw0 | some r => min raw0 r
          if raw ≤ 0 then allocFromBucket p sku toWh toCh reason rest st sr
          else
            let q0 := round_quantity raw p.rounding_mode
            if q0 ≤ 0 then allocFromBucket p sku toWh toCh reason rest st sr
            else
              let ma0 := qfloor raw
              let ma1 := match room with | none => ma0 | some r => min ma0 (qfloor r)
              let ma := min (min ma1 (qfloor available)) (qfloor sr)
              if ma ≤ 0 then allocFromBucket p sku toWh toCh reason rest st sr
              else
                let qty := if q0 > ma then ma else q0
                if qty ≤ 0 then allocFromBucket p sku toWh toCh reason rest st sr
                else
                  let st' : EngSt :=
                    { cells :=
                        dput (dput st.cells d (donorSt.allocate qty)) (toWh, toCh)
                          (recvSt.receive qty)
                      recs := st.recs ++
                        [{ sku_code := sku, from_warehouse := d.1, from_channel := d.2,
                           to_warehouse := toWh, to_channel := toCh, qty := qty,
                           reason := reason }] }
                  allocFromBucket p sku toWh toCh reason rest st' (sr - qty)
      | _, _ => allocFromBucket p sku toWh toCh reason rest st sr

/-- The donor pairs for the `intra_nonmain` bucket (lines 187-194), already
sorted; the keys are extracted after sorting since the loop re-reads the dict. -/
def donorsIntraOf (cells : List (Key × CellState)) (wh mc : String) : List Key :=
  (sortDescBy (fun kc => kc.2.available_surplus)
      (cells.filter fun kc =>
        kc.1.1 = wh ∧ kc.1.2 ≠ mc ∧ kc.2.available_surplus > 0)).map Prod.fst

/-- The sorted inter-warehouse donor pairs (lines 196-201). -/
def donorsInterOf (cells : List (Key × CellState)) (wh : String) : List Key :=
  (sortDescBy (fun kc => kc.2.available_surplus)
      (cells.filter fun kc => kc.1.1 ≠ wh ∧ kc.2.available_surplus > 0)).map Prod.fst

/-- Serve one shortage target: the three donor buckets in priority order with
the early exits of lines 291-304. -/
def fillTarget (p : ReallocationPolicyData) (mains : List (String × String))
    (sku wh mc : String) (shortage : ℚ) (st : EngSt) : EngSt :=
  let donorsIntra := donorsIntraOf st.cells wh mc
  let donorsInter := donorsInterOf st.cells wh
  let donorsInterNonmain := donorsInter.filter fun k => ¬ dget mains k.1 = some k.2
  let donorsInterMain := donorsInter.filter fun k => dget mains k.1 = some k.2
  match allocFromBucket p sku wh mc "fill main channel (intra)" donorsIntra st shortage with
  | (false, st1, _) => st1
  | (true, st1, sr1) =>
    if sr1 ≤ 0 then st1
    else
      match allocFromBucket p sku wh mc "fill main channel (inter non-main)"
          donorsInterNonmain st1 sr1 with
      | (false, st2, _) => st2
      | (true, st2, sr2) =>
        if sr2 ≤ 0 then st2
        else if p.take_from_other_main then
          (allocFromBucket p sku wh mc "fill main channel (inter main)"
            donorsInterMain st2 sr2).2.1
        else st2

/-- The shortage targets of one SKU (lines 166-173): main-channel cells with a
negative stored `gap`, in `warehouse_main_channels` iteration order. -/
def collectShortages (cells : List (Key × CellState))
    (mains : List (String × String)) : List (String × String × ℚ) :=
  mains.filterMap fun wm =>
    match dget cells (wm.1, wm.2) with
    | none => none
    | some c =>
      let shortage := if c.gap < 0 then 0 - c.gap else 0
      if shortage > 0 then some (wm.1, wm.2, shortage) else none

/-- The target loop of lines 177-322 over the sorted shortage list. -/
def targetsFold (p : ReallocationPolicyData) (mains : List (String × String))
    (sku : String) : List (String × String × ℚ) → EngSt → EngSt
  | [], st => st
  | t :: ts, st => targetsFold p mains sku ts (fillTarget p mains sku t.1 t.2.1 t.2.2 st)

/-- The greedy strategy for one SKU (shortages sorted descending by magnitude,
stable; then each target served in order). -/
def greedySku (p : ReallocationPolicyData) (mains : List (String × String))
    (sku : String) (st : EngSt) : EngSt :=
  targetsFold p mains sku
    (sortDescBy (fun t => t.2.2) (collectShortages st.cells mains)) st

/-! ### Fair-share strategy (`_recommend_fair_share`, lines 336-747) -/

/-- `_FairShareReceiver` (lines 103-114); the live `_CellState` reference is
replaced by key lookups. -/
structure FSReceiver where
  warehouse : String
  channel : String
  base : ℚ
  std : ℚ
  shortage : ℚ
  max_receivable : Option ℚ
deriving DecidableEq

/-- `_FairShareReceiver.key`. -/
def FSReceiver.key (r : FSReceiver) : Key := (r.warehouse, r.channel)

/-- The receiver-collection loop of lines 343-376. -/
def collectReceivers (p : ReallocationPolicyData) (cells : List (Key × CellState))
    (mains : List (String × String)) : List FSReceiver :=
  mains.filterMap fun wm =>
    match dget cells (wm.1, wm.2) with
    | none => none
    | some c =>
      let shortage := if c.gap < 0 then 0 - c.gap else 0
      if shortage ≤ 0 then none
      else
        let stdv := if c.stdstock > 0 then c.stdstock else 0
        if stdv ≤ 0 then none
        else
          let base0 :=
            if p.fair_share_mode = FairShareMode.equalize_ratio_start then
              c.stock_at_anchor
            else c.stock_closing
          let base := if base0 < 0 then 0 else base0
          if p.allow_overfill = false then
            let cap := c.remaining_capacity
            if cap ≤ 0 then none
            else
              some { warehouse := wm.1, channel := wm.2, base := base, std := stdv,
                     shortage := shortage, max_receivable := some cap }
          else
            some { warehouse := wm.1, channel := wm.2, base := base, std := stdv,
                   shortage := shortage, max_receivable := none }

/-- The donor-pool scan of lines 381-397: non-main donors, other-main donors
(kept only under `take_from_other_main`), and `total_available`. -/
def fsDonorScan (p : ReallocationPolicyData) (mains : List (String × String))
    (cells : List (Key × CellState)) :
    List (Key × CellState) × List (Key × CellState) × ℚ :=
  cells.foldl
    (fun acc kc =>
      let a := kc.2.available_surplus
      if a ≤ 0 then acc
      else if dget mains kc.1.1 = some kc.1.2 then
        if p.take_from_other_main then (acc.1, acc.2.1 ++ [kc], acc.2.2 + a) else acc
      else (acc.1 ++ [kc], acc.2.1, acc.2.2 + a))
    ([], [], 0)

/-- One receiver's entitlement inside `needs_for_lambda` (lines 480-500). -/
def needOf (p : ReallocationPolicyData) (r : FSReceiver) (lv : ℚ) : ℚ :=
  if r.std ≤ 0 then 0
  else
    let target0 := r.std * lv
    let target := if p.allow_overfill = false then min target0 r.std else target0
    let need0 := target - r.base
    if need0 ≤ 0 then 0
    else
      let need1 :=
        match r.max_receivable with
        | some m => if need0 > m then m else need0
        | none => need0
      if need1 > 0 then need1 else 0

/-- `needs_for_lambda(...)[1]`. -/
def needsList (p : ReallocationPolicyData) (rs : List FSReceiver) (lv : ℚ) : List ℚ :=
  rs.map fun r => needOf p r lv

/-- `needs_for_lambda(...)[0]` (the running `total` only accumulates the
non-zero needs, which equals the list sum). -/
def needsTotal (p : ReallocationPolicyData) (rs : List FSReceiver) (lv : ℚ) : ℚ :=
  (needsList p rs lv).sum

/-- The upper-bound doubling loop of lines 509-516 (at most 32 iterations,
stopping once `high` exceeds 1000). -/
def expandHigh (p : ReallocationPolicyData) (rs : List FSReceiver) (effective : ℚ) :
    Nat → ℚ → ℚ
  | 0, high => high
  | n + 1, high =>
    if needsTotal p rs high + QUANT < effective then
      let high2 := high * 2
      if high2 > 1000 then high2 else expandHigh p rs effective n high2
    else high

/-- The 60-step bisection of lines 518-527; returns the final `high`. -/
def bisect (p : ReallocationPolicyData) (rs : List FSReceiver) (effective : ℚ) :
    Nat → ℚ → ℚ → ℚ
  | 0, _, high => high
  | n + 1, low, high =>
    let mid := (low + high) / 2
    if needsTotal p rs mid + QUANT < effective then bisect p rs effective n mid high
    else bisect p rs effective n low mid

/-- The plan clamp of lines 530-537. -/
def planOf (r : FSReceiver) (need : ℚ) : ℚ :=
  if need ≤ 0 then 0
  else
    match r.max_receivable with
    | some m => if need > m then m else need
    | none => need

/-- The per-receiver rounding of lines 539-546. -/
def roundedPlanOf (p : ReallocationPolicyData) (r : FSReceiver) (need : ℚ) : ℚ :=
  let q := round_quantity need p.rounding_mode
  match r.max_receivable with
  | some m => if q > qfloor m then qfloor m else q
  | none => q

/-- Fuel bound for the unit-at-a-time loops: `|q| ≤ |q.num|`, so this many
single-unit steps always exhaust a remaining amount of `q`. -/
def fuelOf (q : ℚ) : Nat := q.num.natAbs + 1

/-- The `delta > 0` inner `while` of `apply_adjustment` (lines 565-572). -/
def upLoop (cap : Option ℚ) : Nat → ℚ → ℚ → ℚ × ℚ
  | 0, plan, rem => (plan, rem)
  | n + 1, plan, rem =>
    if rem > 0 then
      match cap with
      | some c =>
        if plan ≥ c then (plan, rem)
        else if rem - 1 ≤ 0 then (plan + 1, rem - 1)
        else upLoop cap n (plan + 1) (rem - 1)
      | none =>
        if rem - 1 ≤ 0 then (plan + 1, rem - 1)
        else upLoop cap n (plan + 1) (rem - 1)
    else (plan, rem)

/-- The `delta < 0` inner `while` of `apply_adjustment` (lines 573-578). -/
def downLoop : Nat → ℚ → ℚ → ℚ × ℚ
  | 0, plan, rem => (plan, rem)
  | n + 1, plan, rem =>
    if rem < 0 ∧ plan > 0 then
      if rem + 1 ≥ 0 then (plan - 1, rem + 1)
      else downLoop n (plan - 1) (rem + 1)
    else (plan, rem)

/-- `apply_adjustment` (lines 554-583) over the descending-plan index order;
`isUp` records the sign test `delta > 0` made once on the original delta. -/
def applyAdj (rs : List FSReceiver) (isUp : Bool) :
    List Nat → List ℚ → ℚ → List ℚ × ℚ
  | [], plans, rem => (plans, rem)
  | idx :: rest, plans, rem =>
    if rem = 0 then (plans, rem)
    else
      let cap : Option ℚ := ((rs.get? idx).bind FSReceiver.max_receivable).map qfloor
      let cur := plans.getD idx 0
      let res :=
        if isUp then upLoop cap (fuelOf rem) cur rem else downLoop (fuelOf rem) cur rem
      applyAdj rs isUp rest (plans.set idx res.1) res.2

/-- The execution state of the allocation phases: engine state plus
`remaining_plan` and `remaining_total`. -/
structure FSExec where
  eng : EngSt
  remPlan : List (Key × ℚ)
  remTotal : ℚ
deriving DecidableEq

/-- `next_receiver_with_need` (lines 605-609). -/
def nextReceiver : List FSReceiver → List (Key × ℚ) → Option FSReceiver
  | [], _ => none
  | r :: t, plan => if (dget plan r.key).getD 0 > 0 then some r else nextReceiver t plan

/-- `commit_move` (lines 611-656), sans logging. -/
def commitMove (sku reason : String) (d : Key) (dc : CellState) (r : FSReceiver)
    (rc : CellState) (qty : ℚ) (ex : FSExec) : FSExec :=
  let rp0 := (dget ex.remPlan r.key).getD 0 - qty
  let rt0 := ex.remTotal - qty
  { eng :=
      { cells := dput (dput ex.eng.cells d (dc.allocate qty)) r.key (rc.receive qty)
        recs := ex.eng.recs ++
          [{ sku_code := sku, from_warehouse := d.1, from_channel := d.2,
             to_warehouse := r.warehouse, to_channel := r.channel, qty := qty,
             reason := reason }] }
    remPlan := dput ex.remPlan r.key (if rp0 < 0 then 0 else rp0)
    remTotal := if rt0 < 0 then 0 else rt0 }

/-- The intra-warehouse donor loop for one receiver (lines 659-676). -/
def fsIntraDonors (p : ReallocationPolicyData) (sku : String) (r : FSReceiver) :
    List Key → FSExec → FSExec
  | [], ex => ex
  | d :: rest, ex =>
    if (dget ex.remPlan r.key).getD 0 ≤ 0 ∨ ex.remTotal ≤ 0 then ex
    else
      match dget ex.eng.cells d, dget ex.eng.cells r.key with
      | some dc, some rc =>
        let available := dc.available_surplus
        if available ≤ 0 then fsIntraDonors p sku r rest ex
        else
          let qty0 := min available ((dget ex.remPlan r.key).getD 0)
          let qty1 :=
            if p.allow_overfill = false then min qty0 rc.remaining_capacity else qty0
          let qty := qfloor qty1
          if qty ≤ 0 then fsIntraDonors p sku r rest ex
          else
            fsIntraDonors p sku r rest
              (commitMove sku "fill main channel (intra)" d dc r rc qty ex)
      | _, _ => fsIntraDonors p sku r rest ex

/-- The `while` loop draining one inter-warehouse donor (lines 680-693 and
697-710); each pass moves at least one whole unit or exits, so `fuelOf` of the
entry `remaining_total` dominates the trip count. -/
def fsInterDonor (p : ReallocationPolicyData) (sku reason : String)
    (rOrder : List FSReceiver) (d : Key) : Nat → FSExec → FSExec
  | 0, ex => ex
  | n + 1, ex =>
    match dget ex.eng.cells d with
    | none => ex
    | some dc =>
      if dc.available_surplus > 0 ∧ ex.remTotal > 0 then
        match nextReceiver rOrder ex.remPlan with
        | none => ex
        | some r =>
          match dget ex.eng.cells r.key with
          | none => ex
          | some rc =>
            let qty0 := min dc.available_surplus ((dget ex.remPlan r.key).getD 0)
            let qty1 :=
              if p.allow_overfill = false then min qty0 rc.remaining_capacity else qty0
            let qty := qfloor qty1
            if qty ≤ 0 then ex
            else fsInterDonor p sku reason rOrder d n (commitMove sku reason d dc r rc qty ex)
      else ex

/-- One inter-warehouse bucket: every donor drained in sorted order. -/
def fsInterPhase (p : ReallocationPolicyData) (sku reason : String)
    (rOrder : List FSReceiver) (donors : List Key) (ex : FSExec) : FSExec :=
  donors.foldl (fun ex d => fsInterDonor p sku reason rOrder d (fuelOf ex.remTotal) ex) ex

/-- The three allocation phases of lines 658-710: intra-warehouse first, then
the inter-warehouse non-main bucket (if demand remains), then the
inter-warehouse main bucket (if demand remains and the policy allows it). -/
def fsRunPhases (p : ReallocationPolicyData) (s : String) (rOrder : List FSReceiver)
    (intraFor : String → List Key) (nmKeys imKeys : List Key) (ex0 : FSExec) : FSExec :=
  let ex1 := rOrder.foldl (fun ex r => fsIntraDonors p s r (intraFor r.warehouse) ex) ex0
  let ex2 := if ex1.remTotal > 0 then
      fsInterPhase p s "fill main channel (inter non-main)" rOrder nmKeys ex1
    else ex1
  if ex2.remTotal > 0 ∧ p.take_from_other_main then
    fsInterPhase p s "fill main channel (inter main)" rOrder imKeys ex2
  else ex2

/-- Lines 440-747 of `_recommend_fair_share`, after the early returns: the
unit bookkeeping, the λ search, the rounding reconciliation and the three
allocation phases. -/
def fairShareCore (p : ReallocationPolicyData) (sku : String) (st : EngSt)
    (receivers : List FSReceiver) (nonmainSorted interMainSorted : List (Key × CellState))
    (effective_total : ℚ) : EngSt :=
  let donor_units0 := (nonmainSorted.map fun kc => qfloor kc.2.available_surplus).sum
  let donor_units1 :=
    if p.take_from_other_main then
      donor_units0 + (interMainSorted.map fun kc => qfloor kc.2.available_surplus).sum
    else donor_units0
  let donor_units :=
    if p.allow_overfill = false then
      min donor_units1 ((receivers.map fun r => qfloor (r.max_receivable.getD 0)).sum)
    else donor_units1
  let available_units := min (qfloor effective_total) donor_units
  let minR1 :=
    match receivers.map (fun r => if r.std > 0 then r.base / r.std else 0) with
    | [] => (0 : ℚ)
    | x :: xs => xs.foldl min x
  let minR := if minR1 < 0 then 0 else minR1
  let lv :=
    if effective_total ≤ 0 then minR
    else
      let high0 := max minR 1
      let high1 := if high0 ≤ minR then minR + QUANT else high0
      bisect p receivers effective_total 60 minR
        (expandHigh p receivers effective_total 32 high1)
  let needs :=
    if effective_total ≤ 0 then receivers.map fun _ => (0 : ℚ)
    else needsList p receivers lv
  let plans := List.zipWith planOf receivers needs
  let rounded := List.zipWith (roundedPlanOf p) receivers plans
  let diff := available_units - rounded.sum
  let indices := sortDescBy (fun i => plans.getD i 0) (List.range receivers.length)
  let adjusted :=
    if diff > 0 then (applyAdj receivers true indices rounded diff).1
    else if diff < 0 then (applyAdj receivers false indices rounded diff).1
    else rounded
  let remPlan :=
    (receivers.zip adjusted).foldl
      (fun acc rq => dput acc rq.1.key (if rq.2 > 0 then rq.2 else 0)) []
  let rOrder := sortAscBy (fun r => if r.std > 0 then r.base / r.std else 0) receivers
  let intraFor := fun wh =>
    (sortDescBy (fun kc => kc.2.available_surplus)
      (nonmainSorted.filter fun kc => kc.1.1 = wh)).map Prod.fst
  (fsRunPhases p sku rOrder intraFor (nonmainSorted.map Prod.fst)
    (interMainSorted.map Prod.fst)
    { eng := st, remPlan := remPlan, remTotal := (remPlan.map Prod.snd).sum }).eng

/-- `_recommend_fair_share` for one SKU, including the early returns of lines
378-379 (no receivers), 409-438 (no donor capacity) and 444-445 (no receiver
capacity). -/
def fairShareSku (p : ReallocationPolicyData) (mains : List (String × String))
    (sku : String) (st : EngSt) : EngSt :=
  let receivers := collectReceivers p st.cells mains
  if receivers = [] then st
  else
    let scan := fsDonorScan p mains st.cells
    let nonmainSorted := sortDescBy (fun kc => kc.2.available_surplus) scan.1
    let interMainSorted := sortDescBy (fun kc => kc.2.available_surplus) scan.2.1
    let total_available := scan.2.2
    if total_available ≤ 0 then st
    else if p.allow_overfill = false then
      let capacity_total := (receivers.map fun r => r.max_receivable.getD 0).sum
      if capacity_total ≤ 0 then st
      else
        fairShareCore p sku st receivers nonmainSorted interMainSorted
          (min total_available capacity_total)
    else fairShareCore p sku st receivers nonmainSorted interMainSorted total_available

/-! ### Entry point (`recommend_plan_lines`, lines 134-324) -/

/-- The per-SKU dispatch of lines 155-164. -/
def processSku (p : ReallocationPolicyData) (mains : List (String × String))
    (sku : String) (cells : List (Key × CellState)) (recs : List RecommendedMove) :
    List RecommendedMove :=
  if p.fair_share_mode ≠ FairShareMode.off then
    (fairShareSku p mains sku { cells := cells, recs := recs }).recs
  else (greedySku p mains sku { cells := cells, recs := recs }).recs

/-- `recommend_plan_lines`: group rows by SKU (last row wins per duplicated
cell key), then run the configured strategy per SKU, accumulating moves. -/
def recommend_plan_lines (rows : List MatrixRowData) (mains : List (String × String))
    (p : ReallocationPolicyData) : List RecommendedMove :=
  (buildCells rows).foldl (fun recs e => processSku p mains e.1 e.2 recs) []

/-! ### Policy store (`reallocation_policy.py`) -/

/-- The DB row `models.ReallocationPolicy` (models.py lines 215-239),
including the `deficit_basis` column (server default `'closing'`) that the
service layer's `ReallocationPolicyData` does not expose. -/
structure PolicyRecord where
  id : Nat
  take_from_other_main : Bool
  rounding_mode : RoundingMode
  allow_overfill : Bool
  fair_share_mode : FairShareMode
  deficit_basis : String
  updated_at : Option Nat
  updated_by : Option String
deriving DecidableEq

/-- The policy table: `none` models `inspector.has_table(...) = False`
(the table does not exist / is unavailable). -/
abbrev PolicyTable := Option (List PolicyRecord)

/-- A freshly inserted `models.ReallocationPolicy(id=1)` carrying the column
defaults of models.py; `now` is the `func.now()` timestamp. -/
def mkDefaultRecord (now : Nat) : PolicyRecord :=
  { id := 1, take_from_other_main := false, rounding_mode := .floor,
    allow_overfill := false, fair_share_mode := .off, deficit_basis := "closing",
    updated_at := some now, updated_by := none }

/-- `_record_to_data` (lines 29-37); it does not copy `deficit_basis`. -/
def record_to_data (r : PolicyRecord) : ReallocationPolicyData :=
  { take_from_other_main := r.take_from_other_main
    rounding_mode := r.rounding_mode
    allow_overfill := r.allow_overfill
    fair_share_mode := r.fair_share_mode
    updated_at := r.updated_at
    updated_by := r.updated_by }

/-- `_DEFAULT_POLICY` (lines 40-47). -/
def DEFAULT_POLICY : ReallocationPolicyData :=
  { take_from_other_main := false, rounding_mode := .floor, allow_overfill := false,
    fair_share_mode := .off, updated_at := none, updated_by := none }

/-- `select(ReallocationPolicy).order_by(id).limit(1)`: the row with the
smallest id. -/
def firstById : List PolicyRecord → Option PolicyRecord
  | [] => none
  | r :: t =>
    match firstById t with
    | none => some r
    | some b => if b.id < r.id then some b else some r

/-- `_ensure_policy_record` (lines 50-74): `none` when the table is missing,
otherwise the first stored row, created with column defaults when the table
is empty. -/
def ensure_policy_record (db : PolicyTable) (now : Nat) :
    Option PolicyRecord × PolicyTable :=
  match db with
  | none => (none, none)
  | some records =>
    match firstById records with
    | some r => (some r, some records)
    | none =>
      let r := mkDefaultRecord now
      (some r, some (records ++ [r]))

/-- `get_reallocation_policy` (lines 77-83); the `Except` layer makes raising
representable — this function never uses it. -/
def get_reallocation_policy (db : PolicyTable) (now : Nat) :
    Except String (ReallocationPolicyData × PolicyTable) :=
  match ensure_policy_record db now with
  | (none, db') => .ok (DEFAULT_POLICY, db')
  | (some r, db') => .ok (record_to_data r, db')

/-- `update_reallocation_policy` (lines 86-108): `RuntimeError` when the
table is unavailable, otherwise persist the new field values.  The signature
has no `deficit_basis` parameter, mirroring the source. -/
def update_reallocation_policy (db : PolicyTable) (now : Nat)
    (take_from_other_main : Bool) (rounding_mode : RoundingMode)
    (allow_overfill : Bool) (fair_share_mode : FairShareMode)
    (updated_by : Option String) :
    Except String (ReallocationPolicyData × PolicyTable) :=
  match ensure_policy_record db now with
  | (none, _) => .error "reallocation policy table is not available"
  | (some r, db') =>
    let r' : PolicyRecord :=
      { id := r.id
        take_from_other_main := take_from_other_main
        rounding_mode := rounding_mode
        allow_overfill := allow_overfill
        fair_share_mode := fair_share_mode
        deficit_basis := r.deficit_basis
        updated_at := some now
        updated_by := updated_by }
    (Except.ok (record_to_data r',
      db'.map fun recs => recs.map fun x => if x.id = r.id then r' else x))

/-! ### Observations on move lists used by the claims -/

/-- The contribution of one move to the outflow of cell `k` of SKU `s`. -/
def outContrib (m : RecommendedMove) (s : String) (k : Key) : ℚ :=
  if m.sku_code = s ∧ m.from_warehouse = k.1 ∧ m.from_channel = k.2 then m.qty else 0

/-- Total quantity taken out of cell `k` of SKU `s` by a move list. -/
def movesOutQ (ms : List RecommendedMove) (s : String) (k : Key) : ℚ :=
  (ms.map fun m => outContrib m s k).sum

/-- The contribution of one move to the inflow of cell `k` of SKU `s`. -/
def inContrib (m : RecommendedMove) (s : String) (k : Key) : ℚ :=
  if m.sku_code = s ∧ m.to_warehouse = k.1 ∧ m.to_channel = k.2 then m.qty else 0

/-- Total quantity moved into cell `k` of SKU `s` by a move list. -/
def movesInQ (ms : List RecommendedMove) (s : String) (k : Key) : ℚ :=
  (ms.map fun m => inContrib m s k).sum

/-- Total available donor surplus offered by an input's cells (every cell's
`available_surplus` in its freshly built state). -/
def totalAvailOf (rows : List MatrixRowData) : ℚ :=
  ((buildCells rows).map fun e =>
    (e.2.map fun kc => kc.2.available_surplus).sum).sum

/-! ### Concrete inputs used by the claim evaluations -/

/-- Row constructor for the concrete scenarios (unused aggregates zeroed). -/
def mkRow (sku wh ch : String) (anchor closing std gap : ℚ) : MatrixRowData :=
  { sku_code := sku, sku_name := none, warehouse_name := wh, channel := ch,
    stock_at_anchor := anchor, inbound_qty := 0, outbound_qty := 0,
    stock_closing := closing, stdstock := std, gap := gap, move := 0, stock_fin := 0 }

/-- The default policy values of the repo's test fixture `_policy`
(floor rounding, no overfill, no take-from-other-main), greedy strategy. -/
def policyOff : ReallocationPolicyData :=
  { take_from_other_main := false, rounding_mode := .floor, allow_overfill := false,
    fair_share_mode := .off, updated_at := none, updated_by := none }

/-- Same policy with the `equalize_ratio_closing` fair-share strategy. -/
def policyFS : ReallocationPolicyData :=
  { policyOff with fair_share_mode := .equalize_ratio_closing }

/-- The rows of the repo test `test_deficit_basis_switches_shortage_detection`
(also the claim's cell: `stock_at_anchor=80, stdstock=120, stock_closing=140`,
with a willing intra-warehouse donor). -/
def c1rows : List MatrixRowData :=
  [mkRow "SKU-1" "W1" "main" 80 140 120 (-40),
   mkRow "SKU-1" "W1" "secondary" 160 160 0 160]

/-- Main-channel map of the C1 scenario. -/
def c1mains : List (String × String) := [("W1", "main")]

/-- C6 baseline input: receivers `WA`/`WB` (std 10, closing 0, shortage 10)
and one whole-unit donor offering 4. -/
def c6rowsSmall : List MatrixRowData :=
  [mkRow "S" "WA" "m" 0 0 10 (-10),
   mkRow "S" "WB" "m" 0 0 10 (-10),
   mkRow "S" "W0" "c1" 4 4 0 4]

/-- C6 enlarged input: same receivers, same whole-unit donor, plus five
sub-unit donors of 9/10 each (total donor surplus 8.5 > 4). -/
def c6rowsLarge : List MatrixRowData :=
  c6rowsSmall ++
    [mkRow "S" "W0" "c2" (9/10) (9/10) 0 (9/10),
     mkRow "S" "W0" "c3" (9/10) (9/10) 0 (9/10),
     mkRow "S" "W0" "c4" (9/10) (9/10) 0 (9/10),
     mkRow "S" "W0" "c5" (9/10) (9/10) 0 (9/10),
     mkRow "S" "W0" "c6" (9/10) (9/10) 0 (9/10)]

/-- Main-channel map of the C6 scenario. -/
def c6mains : List (String × String) := [("WA", "m"), ("WB", "m")]

/-- C10 input with a duplicated `(S1, W1, sec)` key: the duplicate occupies the
first position and again the last, with identical values. -/
def c10rowsDup : List MatrixRowData :=
  [mkRow "S1" "W1" "sec" 50 50 0 50,
   mkRow "S2" "W1" "sec" 50 50 0 50,
   mkRow "S2" "W1" "main" 0 0 10 (-10),
   mkRow "S1" "W1" "main" 0 0 10 (-10),
   mkRow "S1" "W1" "sec" 50 50 0 50]

/-- The same input with only the last of the duplicated rows kept. -/
def c10rowsLast : List MatrixRowData := c10rowsDup.drop 1

/-- Main-channel map of the C10 scenario. -/
def c10mains : List (String × String) := [("W1", "main")]

/-- The full (sku, warehouse, channel) key of an input row. -/
def rowKeyOf (r : MatrixRowData) : String × Key :=
  (r.sku_code, r.warehouse_name, r.channel)

/-- The engine cell built for the C1 scenario's main channel. -/
def c1cellMain : CellState := rowCell (mkRow "SKU-1" "W1" "main" 80 140 120 (-40))

/-- The engine cell built for the C1 scenario's donor channel. -/
def c1cellSec : CellState := rowCell (mkRow "SKU-1" "W1" "secondary" 160 160 0 160)

/-- The per-SKU cell dict the engine builds from `c1rows`. -/
def c1inner : List (Key × CellState) :=
  [(("W1", "main"), c1cellMain), (("W1", "secondary"), c1cellSec)]

/-- A one-cell input offering no donor surplus anywhere (C7 witness). -/
def c7rows : List MatrixRowData := [mkRow "S" "W1" "main" 0 0 10 (-10)]

/-- The engine cell built for the C10 scenario's `(S1, W1, sec)` donor. -/
def c10cellSec1 : CellState := rowCell (mkRow "S1" "W1" "sec" 50 50 0 50)

/-- The engine cell built for the C10 scenario's `(S1, W1, main)` receiver. -/
def c10cellMain1 : CellState := rowCell (mkRow "S1" "W1" "main" 0 0 10 (-10))

/-- The per-SKU cell dict the engine builds from `c10rowsDup` for `S1`. -/
def c10innerS1 : List (Key × CellState) :=
  [(("W1", "sec"), c10cellSec1), (("W1", "main"), c10cellMain1)]

/-- The move the greedy engine emits for `S1` on the `c10rowsDup` input. -/
def c10moveS1 : RecommendedMove :=
  ⟨"S1", "W1", "sec", "W1", "main", 10, "fill main channel (intra)"⟩

/-! ### Invariant predicates used by the theorems -/

/-- The bookkeeping invariant of one engine cell: the counters are
non-negative, total outflow never exceeds the surplus (`max gap 0`) nor the
clamped anchor stock, and — when overfill is forbidden — total inflow never
exceeds the headroom `max 0 (stdstock - stock_closing)`. -/
def StInvP (p : ReallocationPolicyData) (c : CellState) : Prop :=
  0 ≤ c.allocated_out ∧ 0 ≤ c.allocated_in ∧ 0 ≤ c.surplus_remaining ∧
  c.surplus_remaining + c.allocated_out ≤ max c.gap 0 ∧
  c.allocated_out ≤ c.stock_at_anchor ∧
  (p.allow_overfill = false → c.allocated_in ≤ max 0 (c.stdstock - c.stock_closing))

/-- All cells of a dict satisfy the invariant. -/
def InvCells (p : ReallocationPolicyData) (cells : List (Key × CellState)) : Prop :=
  ∀ k c, dget cells k = some c → StInvP p c

/-- Properties of every move the engine emits while processing SKU `s`. -/
def MoveOkP (p : ReallocationPolicyData) (s : String)
    (mains : List (String × String)) (m : RecommendedMove) : Prop :=
  m.sku_code = s ∧ (∃ n : ℤ, 0 < n ∧ m.qty = (n : ℚ)) ∧
  (p.take_from_other_main = false →
    ¬ dget mains m.from_warehouse = some m.from_channel)

/-- How a batch `d` of freshly emitted moves relates the cell dict before and
after: the dict's domain and the static fields are untouched, and the running
counters grow by exactly the batch's per-cell totals. -/
def StepCells (s : String) (d : List RecommendedMove)
    (cells cells' : List (Key × CellState)) : Prop :=
  ∀ k,
    (dget cells k = none →
      dget cells' k = none ∧ movesOutQ d s k = 0 ∧ movesInQ d s k = 0) ∧
    (∀ c, dget cells k = some c → ∃ c', dget cells' k = some c' ∧
      c'.stock_at_anchor = c.stock_at_anchor ∧ c'.stdstock = c.stdstock ∧
      c'.gap = c.gap ∧ c'.stock_closing = c.stock_closing ∧
      c'.allocated_out = c.allocated_out + movesOutQ d s k ∧
      c'.allocated_in = c.allocated_in + movesInQ d s k)

/-- A fair-share receiver whose cell exists and has a negative stored gap
(true of every receiver `_recommend_fair_share` collects). -/
def RecvGap (cells : List (Key × CellState)) (r : FSReceiver) : Prop :=
  ∃ c, dget cells r.key = some c ∧ c.gap < 0

/-- The transition invariant of every engine phase processing SKU `s`. -/
def Step (p : ReallocationPolicyData) (s : String) (mains : List (String × String))
    (st st' : EngSt) : Prop :=
  ∃ d, st'.recs = st.recs ++ d ∧ (∀ m ∈ d, MoveOkP p s mains m) ∧
    StepCells s d st.cells st'.cells ∧
    (InvCells p st.cells → InvCells p st'.cells)

/-! ## Lemmas: association lists -/

theorem dget_dput_self {κ α : Type} [DecidableEq κ] (l : List (κ × α)) (k : κ) (v : α) :
    dget (dput l k v) k = some v := by
  induction l with
  | nil => simp [dput, dget]
  | cons h t ih =>
    by_cases hk : h.1 = k
    · simp [dput, hk, dget]
    · simp [dput, hk, dget, ih]

theorem dget_dput_ne {κ α : Type} [DecidableEq κ] (l : List (κ × α)) {k k' : κ}
    (v : α) (h : k' ≠ k) : dget (dput l k v) k' = dget l k' := by
  induction l with
  | nil => simp [dput, dget, Ne.symm h]
  | cons hd t ih =>
    by_cases hk : hd.1 = k
    · have hne : hd.1 ≠ k' := by rw [hk]; exact Ne.symm h
      simp [dput, hk, dget, hne, Ne.symm h]
    · by_cases hk' : hd.1 = k'
      · simp [dput, hk, dget, hk', h]
      · simp [dput, hk, dget, hk', ih]

theorem dget_mem_of_nodup {κ α : Type} [DecidableEq κ] (l : List (κ × α))
    (hx : KeysNodup l) {k : κ} {v : α} (hm : (k, v) ∈ l) : dget l k = some v := by
  induction l with
  | nil => simp at hm
  | cons hd t ih =>
    rcases List.mem_cons.mp hm with h | h
    · subst h; simp [dget]
    · have hk : hd.1 ≠ k := by
        intro he
        have : k ∈ t.map Prod.fst := List.mem_map.mpr ⟨(k, v), h, rfl⟩
        have := (List.nodup_cons.mp hx).1
        rw [he] at this
        exact this ‹k ∈ t.map Prod.fst›
      simp only [dget, if_neg hk]
      exact ih (List.nodup_cons.mp hx).2 h

theorem keys_dput {κ α : Type} [DecidableEq κ] (l : List (κ × α)) (k : κ) (v : α) :
    (dput l k v).map Prod.fst =
      if k ∈ l.map Prod.fst then l.map Prod.fst else l.map Prod.fst ++ [k] := by
  induction l with
  | nil => simp [dput]
  | cons hd t ih =>
    by_cases hk : hd.1 = k
    · simp [dput, hk]
    · have hne : ¬ k = hd.1 := fun h => hk h.symm
      by_cases hmem : k ∈ t.map Prod.fst
      · simp [dput, hk, ih, hne, hmem]
      · simp [dput, hk, ih, hne, hmem]

theorem keysNodup_dput {κ α : Type} [DecidableEq κ] (l : List (κ × α)) (k : κ) (v : α)
    (h : KeysNodup l) : KeysNodup (dput l k v) := by
  unfold KeysNodup at h ⊢
  rw [keys_dput]
  by_cases hmem : k ∈ l.map Prod.fst
  · simpa [hmem]
  · simp [hmem, List.nodup_append, h]

/-- In a key-unique main-channel map, membership determines the lookup. -/
theorem dget_of_mem_mains {κ α : Type} [DecidableEq κ] (l : List (κ × α))
    (hx : KeysNodup l) {k : κ} {v : α} (hm : (k, v) ∈ l) : dget l k = some v :=
  dget_mem_of_nodup l hx hm

/-! ## Lemmas: stable sorts preserve membership -/

theorem mem_insDesc {α : Type} (f : α → ℚ) (x y : α) (l : List α) :
    y ∈ insDesc f x l ↔ y = x ∨ y ∈ l := by
  induction l with
  | nil => simp [insDesc]
  | cons h t ih =>
    by_cases hc : f x ≤ f h
    · simp [insDesc, hc, ih]; tauto
    · simp [insDesc, hc]

theorem mem_foldl_insDesc {α : Type} (f : α → ℚ) (l : List α) (acc : List α) (y : α) :
    y ∈ l.foldl (fun acc x => insDesc f x acc) acc ↔ y ∈ acc ∨ y ∈ l := by
  induction l generalizing acc with
  | nil => simp
  | cons h t ih =>
    simp only [List.foldl_cons, ih, mem_insDesc, List.mem_cons]
    tauto

theorem mem_sortDescBy {α : Type} (f : α → ℚ) (l : List α) (y : α) :
    y ∈ sortDescBy f l ↔ y ∈ l := by
  unfold sortDescBy
  rw [mem_foldl_insDesc]
  simp

theorem mem_insAsc {α : Type} (f : α → ℚ) (x y : α) (l : List α) :
    y ∈ insAsc f x l ↔ y = x ∨ y ∈ l := by
  induction l with
  | nil => simp [insAsc]
  | cons h t ih =>
    by_cases hc : f h ≤ f x
    · simp [insAsc, hc, ih]; tauto
    · simp [insAsc, hc]

theorem mem_sortAscBy {α : Type} (f : α → ℚ) (l : List α) (y : α) :
    y ∈ sortAscBy f l ↔ y ∈ l := by
  unfold sortAscBy
  have : ∀ acc, y ∈ l.foldl (fun acc x => insAsc f x acc) acc ↔ y ∈ acc ∨ y ∈ l := by
    induction l with
    | nil => simp
    | cons h t ih =>
      intro acc
      simp only [List.foldl_cons, ih, mem_insAsc, List.mem_cons]
      tauto
  rw [this]
  simp

/-! ## Lemmas: move-list totals -/

theorem movesOutQ_nil (s : String) (k : Key) : movesOutQ [] s k = 0 := rfl

theorem movesInQ_nil (s : String) (k : Key) : movesInQ [] s k = 0 := rfl

theorem movesOutQ_append (a b : List RecommendedMove) (s : String) (k : Key) :
    movesOutQ (a ++ b) s k = movesOutQ a s k + movesOutQ b s k := by
  unfold movesOutQ
  rw [List.map_append, List.sum_append]

theorem movesInQ_append (a b : List RecommendedMove) (s : String) (k : Key) :
    movesInQ (a ++ b) s k = movesInQ a s k + movesInQ b s k := by
  unfold movesInQ
  rw [List.map_append, List.sum_append]

theorem movesOutQ_single (m : RecommendedMove) (s : String) (k : Key) :
    movesOutQ [m] s k = outContrib m s k := by
  simp [movesOutQ]

theorem movesInQ_single (m : RecommendedMove) (s : String) (k : Key) :
    movesInQ [m] s k = inContrib m s k := by
  simp [movesInQ]

theorem movesOutQ_eq_zero_of_sku (ms : List RecommendedMove) (s : String) (k : Key)
    (h : ∀ m ∈ ms, m.sku_code ≠ s) : movesOutQ ms s k = 0 := by
  unfold movesOutQ
  rw [List.sum_eq_zero]
  intro x hx
  rcases List.mem_map.mp hx with ⟨m, hm, rfl⟩
  simp [outContrib, h m hm]

theorem movesInQ_eq_zero_of_sku (ms : List RecommendedMove) (s : String) (k : Key)
    (h : ∀ m ∈ ms, m.sku_code ≠ s) : movesInQ ms s k = 0 := by
  unfold movesInQ
  rw [List.sum_eq_zero]
  intro x hx
  rcases List.mem_map.mp hx with ⟨m, hm, rfl⟩
  simp [inContrib, h m hm]

theorem le_movesOutQ_of_mem (ms : List RecommendedMove) (s : String) (k : Key)
    (hpos : ∀ m ∈ ms, 0 ≤ m.qty) {m : RecommendedMove} (hm : m ∈ ms)
    (hs : m.sku_code = s) (hw : m.from_warehouse = k.1) (hc : m.from_channel = k.2) :
    m.qty ≤ movesOutQ ms s k := by
  induction ms with
  | nil => simp at hm
  | cons h t ih =>
    have hsum : movesOutQ (h :: t) s k = outContrib h s k + movesOutQ t s k := by
      simp [movesOutQ]
    rcases List.mem_cons.mp hm with rfl | hmem
    · have h2 : outContrib m s k = m.qty := by simp [outContrib, hs, hw, hc]
      have h3 : 0 ≤ movesOutQ t s k := by
        unfold movesOutQ
        apply List.sum_nonneg
        intro x hx
        rcases List.mem_map.mp hx with ⟨m2, hm2, rfl⟩
        unfold outContrib
        split
        · exact hpos m2 (List.mem_cons_of_mem _ hm2)
        · exact le_refl 0
      rw [hsum, h2]
      linarith
    · have h2 : 0 ≤ outContrib h s k := by
        unfold outContrib
        split
        · exact hpos h (List.mem_cons_self _ _)
        · exact le_refl 0
      have h3 := ih (fun m2 hm2 => hpos m2 (List.mem_cons_of_mem _ hm2)) hmem
      rw [hsum]
      linarith


/-! ## Lemmas: cell states -/

theorem allocate_anchor (c : CellState) (q : ℚ) :
    (c.allocate q).stock_at_anchor = c.stock_at_anchor := rfl

theorem allocate_std (c : CellState) (q : ℚ) : (c.allocate q).stdstock = c.stdstock := rfl

theorem allocate_gap (c : CellState) (q : ℚ) : (c.allocate q).gap = c.gap := rfl

theorem allocate_closing (c : CellState) (q : ℚ) :
    (c.allocate q).stock_closing = c.stock_closing := rfl

theorem allocate_out (c : CellState) (q : ℚ) :
    (c.allocate q).allocated_out = c.allocated_out + q := rfl

theorem allocate_in (c : CellState) (q : ℚ) :
    (c.allocate q).allocated_in = c.allocated_in := rfl

theorem receive_anchor (c : CellState) (q : ℚ) :
    (c.receive q).stock_at_anchor = c.stock_at_anchor := rfl

theorem receive_std (c : CellState) (q : ℚ) : (c.receive q).stdstock = c.stdstock := rfl

theorem receive_gap (c : CellState) (q : ℚ) : (c.receive q).gap = c.gap := rfl

theorem receive_closing (c : CellState) (q : ℚ) :
    (c.receive q).stock_closing = c.stock_closing := rfl

theorem receive_out (c : CellState) (q : ℚ) :
    (c.receive q).allocated_out = c.allocated_out := rfl

theorem receive_in (c : CellState) (q : ℚ) :
    (c.receive q).allocated_in = c.allocated_in + q := rfl

/-- A positive amount within the available surplus fits in both the remaining
surplus and the remaining anchor stock. -/
theorem le_available (c : CellState) {q : ℚ} (hq : 0 < q)
    (h : q ≤ c.available_surplus) :
    q ≤ c.surplus_remaining ∧ q ≤ c.stock_at_anchor - c.allocated_out := by
  unfold CellState.available_surplus at h
  by_cases h1 : c.stock_at_anchor - c.allocated_out ≤ 0
  · simp only [h1, if_pos] at h
    constructor <;> linarith
  · by_cases h2 : c.surplus_remaining ≤ 0
    · simp only [h1, h2, if_neg, if_pos, ite_true, ite_false] at h
      constructor <;> linarith
    · simp only [h1, h2, ite_false] at h
      exact ⟨le_trans h (min_le_left _ _), le_trans h (min_le_right _ _)⟩

/-- A positive amount within the remaining capacity keeps inflow within the
std/closing headroom. -/
theorem le_capacity (c : CellState) {q : ℚ} (hq : 0 < q)
    (h : q ≤ c.remaining_capacity) :
    c.allocated_in + q ≤ c.stdstock - c.stock_closing := by
  unfold CellState.remaining_capacity at h
  by_cases h1 : c.stdstock - (c.stock_closing + c.allocated_in) > 0
  · simp only [h1, if_pos] at h
    linarith
  · simp only [h1, ite_false] at h
    linarith

theorem StInvP_allocate (p : ReallocationPolicyData) (c : CellState) {q : ℚ}
    (hinv : StInvP p c) (hq : 0 < q) (hle : q ≤ c.available_surplus) :
    StInvP p (c.allocate q) := by
  obtain ⟨h1, h2, h3, h4, h5, h6⟩ := hinv
  obtain ⟨hs, hst⟩ := le_available c hq hle
  unfold StInvP CellState.allocate
  refine ⟨by dsimp; linarith, by dsimp; linarith, ?_, ?_, by dsimp; linarith,
    by dsimp; exact h6⟩
  · dsimp only
    split
    · linarith
    · linarith
  · dsimp only
    split
    · linarith
    · linarith

theorem StInvP_receive (p : ReallocationPolicyData) (c : CellState) {q : ℚ}
    (hinv : StInvP p c) (hq : 0 < q)
    (hcap : p.allow_overfill = false → q ≤ c.remaining_capacity) :
    StInvP p (c.receive q) := by
  obtain ⟨h1, h2, h3, h4, h5, h6⟩ := hinv
  unfold StInvP CellState.receive
  refine ⟨by dsimp; linarith, by dsimp; linarith, by dsimp; linarith,
    by dsimp; linarith, by dsimp; linarith, ?_⟩
  intro hov
  dsimp only
  have := le_capacity c hq (hcap hov)
  have h7 : c.stdstock - c.stock_closing ≤ max 0 (c.stdstock - c.stock_closing) :=
    le_max_right _ _
  linarith

/-! ## Lemmas: the Step relation -/

theorem Step_refl (p : ReallocationPolicyData) (s : String)
    (mains : List (String × String)) (st : EngSt) : Step p s mains st st := by
  refine ⟨[], by simp, by simp, ?_, id⟩
  intro k
  constructor
  · intro h
    exact ⟨h, movesOutQ_nil s k, movesInQ_nil s k⟩
  · intro c hc
    exact ⟨c, hc, rfl, rfl, rfl, rfl, by rw [movesOutQ_nil]; ring,
      by rw [movesInQ_nil]; ring⟩

theorem Step_trans {p : ReallocationPolicyData} {s : String}
    {mains : List (String × String)} {a b c : EngSt}
    (h1 : Step p s mains a b) (h2 : Step p s mains b c) : Step p s mains a c := by
  obtain ⟨d1, hr1, hm1, hc1, hi1⟩ := h1
  obtain ⟨d2, hr2, hm2, hc2, hi2⟩ := h2
  refine ⟨d1 ++ d2, by rw [hr2, hr1, List.append_assoc], ?_, ?_, fun h => hi2 (hi1 h)⟩
  · intro m hm
    rcases List.mem_append.mp hm with h | h
    · exact hm1 m h
    · exact hm2 m h
  · intro k
    obtain ⟨hn1, hs1⟩ := hc1 k
    obtain ⟨hn2, hs2⟩ := hc2 k
    constructor
    · intro h
      obtain ⟨g1, g2, g3⟩ := hn1 h
      obtain ⟨f1, f2, f3⟩ := hn2 g1
      exact ⟨f1, by rw [movesOutQ_append, g2, f2]; ring,
        by rw [movesInQ_append, g3, f3]; ring⟩
    · intro x hx
      obtain ⟨y, hy, e1, e2, e3, e4, e5, e6⟩ := hs1 x hx
      obtain ⟨z, hz, f1, f2, f3, f4, f5, f6⟩ := hs2 y hy
      refine ⟨z, hz, by rw [f1, e1], by rw [f2, e2], by rw [f3, e3], by rw [f4, e4],
        ?_, ?_⟩
      · rw [f5, e5, movesOutQ_append]; ring
      · rw [f6, e6, movesInQ_append]; ring


/-- A move whose from-cell is not `k` contributes nothing to `k`'s outflow. -/
theorem outContrib_eq_zero (m : RecommendedMove) (s : String) {k : Key}
    (h : ¬ (m.from_warehouse, m.from_channel) = k) : outContrib m s k = 0 := by
  unfold outContrib
  split
  · rename_i hcon
    exact absurd (Prod.ext hcon.2.1 hcon.2.2) h
  · rfl

/-- A move whose to-cell is not `k` contributes nothing to `k`'s inflow. -/
theorem inContrib_eq_zero (m : RecommendedMove) (s : String) {k : Key}
    (h : ¬ (m.to_warehouse, m.to_channel) = k) : inContrib m s k = 0 := by
  unfold inContrib
  split
  · rename_i hcon
    exact absurd (Prod.ext hcon.2.1 hcon.2.2) h
  · rfl

/-- The shared shape of every donor/receiver commit in both strategies:
state update `allocate`/`receive` plus one appended move. -/
theorem Step_commit (p : ReallocationPolicyData) (s : String)
    (mains : List (String × String)) (st : EngSt) (d r : Key) (dc rc : CellState)
    (qty : ℚ) (reason : String)
    (hd : dget st.cells d = some dc) (hr : dget st.cells r = some rc) (hne : d ≠ r)
    (hq : ∃ n : ℤ, 0 < n ∧ qty = (n : ℚ)) (hle : qty ≤ dc.available_surplus)
    (hcap : p.allow_overfill = false → qty ≤ rc.remaining_capacity)
    (hmain : p.take_from_other_main = false → ¬ dget mains d.1 = some d.2) :
    Step p s mains st
      { cells := dput (dput st.cells d (dc.allocate qty)) r (rc.receive qty)
        recs := st.recs ++
          [{ sku_code := s, from_warehouse := d.1, from_channel := d.2,
             to_warehouse := r.1, to_channel := r.2, qty := qty, reason := reason }] } := by
  obtain ⟨n, hn, hqn⟩ := hq
  have hq0 : 0 < qty := by
    rw [hqn]
    exact_mod_cast hn
  set m : RecommendedMove :=
    { sku_code := s, from_warehouse := d.1, from_channel := d.2,
      to_warehouse := r.1, to_channel := r.2, qty := qty, reason := reason } with hm
  have hmfrom : (m.from_warehouse, m.from_channel) = d := rfl
  have hmto : (m.to_warehouse, m.to_channel) = r := rfl
  have houtd : outContrib m s d = qty := by simp [outContrib, hm]
  have hinr : inContrib m s r = qty := by simp [inContrib, hm]
  have houtr : outContrib m s r = 0 := by
    apply outContrib_eq_zero
    rw [hmfrom]
    exact hne
  have hind : inContrib m s d = 0 := by
    apply inContrib_eq_zero
    rw [hmto]
    exact fun h => hne h.symm
  refine ⟨[m], rfl, ?_, ?_, ?_⟩
  · intro x hx
    rcases List.mem_cons.mp hx with rfl | hx2
    · exact ⟨rfl, ⟨n, hn, hqn⟩, hmain⟩
    · simp at hx2
  · intro k
    constructor
    · intro hk
      have hkd : k ≠ d := by
        intro he
        rw [he, hd] at hk
        exact Option.noConfusion hk
      have hkr : k ≠ r := by
        intro he
        rw [he, hr] at hk
        exact Option.noConfusion hk
      have houtk : outContrib m s k = 0 := by
        apply outContrib_eq_zero
        rw [hmfrom]
        exact fun h => hkd h.symm
      have hink : inContrib m s k = 0 := by
        apply inContrib_eq_zero
        rw [hmto]
        exact fun h => hkr h.symm
      refine ⟨?_, by rw [movesOutQ_single, houtk], by rw [movesInQ_single, hink]⟩
      rw [dget_dput_ne _ _ hkr, dget_dput_ne _ _ hkd]
      exact hk
    · intro c hc
      by_cases hkr : k = r
      · subst hkr
        have hcrc : c = rc := Option.some_inj.mp (hc.symm.trans hr)
        subst hcrc
        refine ⟨c.receive qty, dget_dput_self _ _ _, rfl, rfl, rfl, rfl, ?_, ?_⟩
        · rw [movesOutQ_single, houtr, receive_out]; ring
        · rw [movesInQ_single, hinr, receive_in]
      · by_cases hkd : k = d
        · subst hkd
          have hcdc : c = dc := Option.some_inj.mp (hc.symm.trans hd)
          subst hcdc
          refine ⟨c.allocate qty, ?_, rfl, rfl, rfl, rfl, ?_, ?_⟩
          · rw [dget_dput_ne _ _ hkr, dget_dput_self]
          · rw [movesOutQ_single, houtd, allocate_out]
          · rw [movesInQ_single, hind, allocate_in]; ring
        · have houtk : outContrib m s k = 0 := by
            apply outContrib_eq_zero
            rw [hmfrom]
            exact fun h => hkd h.symm
          have hink : inContrib m s k = 0 := by
            apply inContrib_eq_zero
            rw [hmto]
            exact fun h => hkr h.symm
          refine ⟨c, ?_, rfl, rfl, rfl, rfl, ?_, ?_⟩
          · rw [dget_dput_ne _ _ hkr, dget_dput_ne _ _ hkd]
            exact hc
          · rw [movesOutQ_single, houtk]; ring
          · rw [movesInQ_single, hink]; ring
  · intro hic k c hc
    by_cases hkr : k = r
    · subst hkr
      rw [dget_dput_self] at hc
      have hcrc : c = rc.receive qty := Option.some_inj.mp hc.symm
      subst hcrc
      exact StInvP_receive p rc (hic k rc hr) hq0 hcap
    · rw [dget_dput_ne _ _ hkr] at hc
      by_cases hkd : k = d
      · subst hkd
        rw [dget_dput_self] at hc
        have hcdc : c = dc.allocate qty := Option.some_inj.mp hc.symm
        subst hcdc
        exact StInvP_allocate p dc (hic k dc hd) hq0 hle
      · rw [dget_dput_ne _ _ hkd] at hc
        exact hic k c hc

/-! ## Lemmas: integer-valued quantities -/

theorem isInt_qfloor (q : ℚ) : ∃ n : ℤ, qfloor q = (n : ℚ) := ⟨⌊q⌋, rfl⟩

theorem isInt_qceil (q : ℚ) : ∃ n : ℤ, qceil q = (n : ℚ) := ⟨⌈q⌉, rfl⟩

theorem isInt_qhalfup (q : ℚ) : ∃ n : ℤ, qhalfup q = (n : ℚ) := ⟨⌊q + 1 / 2⌋, rfl⟩

theorem isInt_min {a b : ℚ} (ha : ∃ n : ℤ, a = (n : ℚ)) (hb : ∃ n : ℤ, b = (n : ℚ)) :
    ∃ n : ℤ, min a b = (n : ℚ) := by
  rcases le_total a b with h | h
  · rw [min_eq_left h]; exact ha
  · rw [min_eq_right h]; exact hb

theorem isInt_round_quantity (q : ℚ) (mode : RoundingMode) :
    ∃ n : ℤ, round_quantity q mode = (n : ℚ) := by
  unfold round_quantity
  split
  · exact ⟨0, by norm_num⟩
  · cases mode
    · exact isInt_qfloor q
    · exact isInt_qhalfup q
    · exact isInt_qceil q

theorem qfloor_le (q : ℚ) : qfloor q ≤ q := Int.floor_le q

theorem posInt_of_pos {q : ℚ} (hq : 0 < q) (h : ∃ n : ℤ, q = (n : ℚ)) :
    ∃ n : ℤ, 0 < n ∧ q = (n : ℚ) := by
  rcases h with ⟨n, rfl⟩
  exact ⟨n, by exact_mod_cast hq, rfl⟩

/-! ## Lemmas: greedy strategy steps -/

/-- `allocate_from_bucket` satisfies the step invariant whenever every donor
key differs from the receiver key and respects the `take_from_other_main`
gate. -/
theorem afb_step (p : ReallocationPolicyData) (s : String)
    (mains : List (String × String)) (toWh toCh reason : String)
    (donors : List Key) :
    ∀ (st : EngSt) (sr : ℚ),
      (∀ d ∈ donors, d ≠ (toWh, toCh) ∧
        (p.take_from_other_main = false → ¬ dget mains d.1 = some d.2)) →
      Step p s mains st (allocFromBucket p s toWh toCh reason donors st sr).2.1 := by
  induction donors with
  | nil =>
    intro st sr _
    simp only [allocFromBucket]
    exact Step_refl p s mains st
  | cons d rest ih =>
    intro st sr hdon
    have hd1 := hdon d (List.mem_cons_self _ _)
    have hrest : ∀ x ∈ rest, x ≠ (toWh, toCh) ∧
        (p.take_from_other_main = false → ¬ dget mains x.1 = some x.2) :=
      fun x hx => hdon x (List.mem_cons_of_mem _ hx)
    by_cases hsr : sr ≤ 0
    · simp only [allocFromBucket, if_pos hsr]
      exact Step_refl p s mains st
    · cases hdg : dget st.cells d with
      | none =>
        cases hrg : dget st.cells (toWh, toCh) with
        | none =>
          simp only [allocFromBucket, if_neg hsr, hdg, hrg]
          exact ih st sr hrest
        | some recvSt =>
          simp only [allocFromBucket, if_neg hsr, hdg, hrg]
          exact ih st sr hrest
      | some donorSt =>
        cases hrg : dget st.cells (toWh, toCh) with
        | none =>
          simp only [allocFromBucket, if_neg hsr, hdg, hrg]
          exact ih st sr hrest
        | some recvSt =>
          by_cases hav : donorSt.available_surplus ≤ 0
          · simp only [allocFromBucket, if_neg hsr, hdg, hrg, if_pos hav]
            exact ih st sr hrest
          · by_cases hblock : p.allow_overfill = false ∧ recvSt.remaining_capacity ≤ 0
            · simp only [allocFromBucket, if_neg hsr, hdg, hrg, if_neg hav, if_pos hblock]
              exact Step_refl p s mains st
            · simp only [allocFromBucket, if_neg hsr, hdg, hrg, if_neg hav, if_neg hblock]
              cases hov : p.allow_overfill with
              | true =>
                simp only [hov, if_true]
                by_cases hraw : min donorSt.available_surplus sr ≤ 0
                · simp only [if_pos hraw]
                  exact ih st sr hrest
                · simp only [if_neg hraw]
                  by_cases hq0 : round_quantity (min donorSt.available_surplus sr)
                      p.rounding_mode ≤ 0
                  · simp only [if_pos hq0]
                    exact ih st sr hrest
                  · simp only [if_neg hq0]
                    by_cases hma : min (min (qfloor (min donorSt.available_surplus sr))
                        (qfloor donorSt.available_surplus)) (qfloor sr) ≤ 0
                    · simp only [if_pos hma]
                      exact ih st sr hrest
                    · simp only [if_neg hma]
                      set q0 := round_quantity (min donorSt.available_surplus sr)
                        p.rounding_mode with hq0def
                      set ma := min (min (qfloor (min donorSt.available_surplus sr))
                        (qfloor donorSt.available_surplus)) (qfloor sr) with hmadef
                      set qty := if q0 > ma then ma else q0 with hqtydef
                      by_cases hqty : qty ≤ 0
                      · simp only [if_pos hqty]
                        exact ih st sr hrest
                      · simp only [if_neg hqty]
                        have hqtyle : qty ≤ ma := by
                          rw [hqtydef]
                          split
                          · exact le_refl ma
                          · rename_i hgt
                            exact le_of_not_lt hgt
                        have hint : ∃ n : ℤ, 0 < n ∧ qty = (n : ℚ) := by
                          apply posInt_of_pos (lt_of_not_le hqty)
                          rw [hqtydef]
                          split
                          · exact isInt_min (isInt_min (isInt_qfloor _) (isInt_qfloor _))
                              (isInt_qfloor _)
                          · exact isInt_round_quantity _ _
                        have hle : qty ≤ donorSt.available_surplus := by
                          have h1 : ma ≤ qfloor donorSt.available_surplus :=
                            le_trans (min_le_left _ _) (min_le_right _ _)
                          have h2 := qfloor_le donorSt.available_surplus
                          linarith
                        have hcap : p.allow_overfill = false →
                            qty ≤ recvSt.remaining_capacity := by
                          intro hcon
                          rw [hcon] at hov
                          exact absurd hov (by simp)
                        exact Step_trans
                          (Step_commit p s mains st d (toWh, toCh) donorSt recvSt qty
                            reason hdg hrg hd1.1 hint hle hcap hd1.2)
                          (ih _ _ hrest)
              | false =>
                simp only [hov, Bool.false_eq_true, if_false]
                by_cases hraw : min (min donorSt.available_surplus sr)
                    recvSt.remaining_capacity ≤ 0
                · simp only [if_pos hraw]
                  exact ih st sr hrest
                · simp only [if_neg hraw]
                  by_cases hq0 : round_quantity (min (min donorSt.available_surplus sr)
                      recvSt.remaining_capacity) p.rounding_mode ≤ 0
                  · simp only [if_pos hq0]
                    exact ih st sr hrest
                  · simp only [if_neg hq0]
                    by_cases hma : min (min (min (qfloor (min (min
                        donorSt.available_surplus sr) recvSt.remaining_capacity))
                        (qfloor recvSt.remaining_capacity))
                        (qfloor donorSt.available_surplus)) (qfloor sr) ≤ 0
                    · simp only [if_pos hma]
                      exact ih st sr hrest
                    · simp only [if_neg hma]
                      set q0 := round_quantity (min (min donorSt.available_surplus sr)
                        recvSt.remaining_capacity) p.rounding_mode with hq0def
                      set ma := min (min (min (qfloor (min (min
                        donorSt.available_surplus sr) recvSt.remaining_capacity))
                        (qfloor recvSt.remaining_capacity))
                        (qfloor donorSt.available_surplus)) (qfloor sr) with hmadef
                      set qty := if q0 > ma then ma else q0 with hqtydef
                      by_cases hqty : qty ≤ 0
                      · simp only [if_pos hqty]
                        exact ih st sr hrest
                      · simp only [if_neg hqty]
                        have hqtyle : qty ≤ ma := by
                          rw [hqtydef]
                          split
                          · exact le_refl ma
                          · rename_i hgt
                            exact le_of_not_lt hgt
                        have hint : ∃ n : ℤ, 0 < n ∧ qty = (n : ℚ) := by
                          apply posInt_of_pos (lt_of_not_le hqty)
                          rw [hqtydef]
                          split
                          · exact isInt_min (isInt_min (isInt_min (isInt_qfloor _)
                              (isInt_qfloor _)) (isInt_qfloor _)) (isInt_qfloor _)
                          · exact isInt_round_quantity _ _
                        have hle : qty ≤ donorSt.available_surplus := by
                          have h1 : ma ≤ qfloor donorSt.available_surplus :=
                            le_trans (min_le_left _ _) (min_le_right _ _)
                          have h2 := qfloor_le donorSt.available_surplus
                          linarith
                        have hcap : p.allow_overfill = false →
                            qty ≤ recvSt.remaining_capacity := by
                          intro _
                          have h1 : ma ≤ qfloor recvSt.remaining_capacity :=
                            le_trans (min_le_left _ _)
                              (le_trans (min_le_left _ _) (min_le_right _ _))
                          have h2 := qfloor_le recvSt.remaining_capacity
                          linarith
                        exact Step_trans
                          (Step_commit p s mains st d (toWh, toCh) donorSt recvSt qty
                            reason hdg hrg hd1.1 hint hle hcap hd1.2)
                          (ih _ _ hrest)

/-- Membership in the intra bucket implies same warehouse, different channel. -/
theorem mem_donorsIntraOf {cells : List (Key × CellState)} {wh mc : String} {d : Key}
    (h : d ∈ donorsIntraOf cells wh mc) : d.1 = wh ∧ d.2 ≠ mc := by
  unfold donorsIntraOf at h
  rcases List.mem_map.mp h with ⟨kc, hkc, rfl⟩
  rw [mem_sortDescBy] at hkc
  have h2 := (List.mem_filter.mp hkc).2
  simp only [decide_eq_true_eq] at h2
  exact ⟨h2.1, h2.2.1⟩

/-- Membership in the inter pool implies a different warehouse. -/
theorem mem_donorsInterOf {cells : List (Key × CellState)} {wh : String} {d : Key}
    (h : d ∈ donorsInterOf cells wh) : d.1 ≠ wh := by
  unfold donorsInterOf at h
  rcases List.mem_map.mp h with ⟨kc, hkc, rfl⟩
  rw [mem_sortDescBy] at hkc
  have h2 := (List.mem_filter.mp hkc).2
  simp only [decide_eq_true_eq] at h2
  exact h2.1

/-- One shortage target (`fillTarget`) satisfies the step invariant, given the
target really is its warehouse's configured main channel. -/
theorem fillTarget_step (p : ReallocationPolicyData) (s : String)
    (mains : List (String × String)) (toWh toCh : String) (sr : ℚ) (st : EngSt)
    (hmc : dget mains toWh = some toCh) :
    Step p s mains st (fillTarget p mains s toWh toCh sr st) := by
  unfold fillTarget
  dsimp only
  have hintra : ∀ d ∈ donorsIntraOf st.cells toWh toCh, d ≠ (toWh, toCh) ∧
      (p.take_from_other_main = false → ¬ dget mains d.1 = some d.2) := by
    intro d hd
    obtain ⟨h1, h2⟩ := mem_donorsIntraOf hd
    constructor
    · intro he
      rw [he] at h2
      exact h2 rfl
    · intro _ hcon
      rw [h1, hmc] at hcon
      exact h2 (Option.some_inj.mp hcon).symm
  have hinterN : ∀ d ∈ (donorsInterOf st.cells toWh).filter
      (fun k => ¬ dget mains k.1 = some k.2), d ≠ (toWh, toCh) ∧
      (p.take_from_other_main = false → ¬ dget mains d.1 = some d.2) := by
    intro d hd
    obtain ⟨hmem, hgate⟩ := List.mem_filter.mp hd
    simp only [decide_eq_true_eq] at hgate
    have h1 := mem_donorsInterOf hmem
    constructor
    · intro he
      rw [he] at h1
      exact h1 rfl
    · intro _
      exact hgate
  rcases h1 : allocFromBucket p s toWh toCh "fill main channel (intra)"
      (donorsIntraOf st.cells toWh toCh) st sr with ⟨b1, st1, sr1⟩
  have step1 : Step p s mains st st1 := by
    have h := afb_step p s mains toWh toCh "fill main channel (intra)"
      (donorsIntraOf st.cells toWh toCh) st sr hintra
    rw [h1] at h
    exact h
  cases b1 with
  | false => exact step1
  | true =>
    dsimp only
    by_cases hsr1 : sr1 ≤ 0
    · rw [if_pos hsr1]
      exact step1
    · rw [if_neg hsr1]
      rcases h2 : allocFromBucket p s toWh toCh "fill main channel (inter non-main)"
          ((donorsInterOf st.cells toWh).filter
            (fun k => ¬ dget mains k.1 = some k.2)) st1 sr1 with ⟨b2, st2, sr2⟩
      have step2 : Step p s mains st1 st2 := by
        have h := afb_step p s mains toWh toCh "fill main channel (inter non-main)"
          ((donorsInterOf st.cells toWh).filter
            (fun k => ¬ dget mains k.1 = some k.2)) st1 sr1 hinterN
        rw [h2] at h
        exact h
      cases b2 with
      | false => exact Step_trans step1 step2
      | true =>
        dsimp only
        by_cases hsr2 : sr2 ≤ 0
        · rw [if_pos hsr2]
          exact Step_trans step1 step2
        · rw [if_neg hsr2]
          by_cases htk : p.take_from_other_main = true
          · rw [if_pos htk]
            have hinterM : ∀ d ∈ (donorsInterOf st.cells toWh).filter
                (fun k => dget mains k.1 = some k.2), d ≠ (toWh, toCh) ∧
                (p.take_from_other_main = false → ¬ dget mains d.1 = some d.2) := by
              intro d hd
              obtain ⟨hmem, _⟩ := List.mem_filter.mp hd
              have h1m := mem_donorsInterOf hmem
              constructor
              · intro he
                rw [he] at h1m
                exact h1m rfl
              · intro hcon
                rw [hcon] at htk
                exact absurd htk (by simp)
            exact Step_trans (Step_trans step1 step2)
              (afb_step p s mains toWh toCh "fill main channel (inter main)"
                ((donorsInterOf st.cells toWh).filter
                  (fun k => dget mains k.1 = some k.2)) st2 sr2 hinterM)
          · rw [if_neg htk]
            exact Step_trans step1 step2

/-- The target loop preserves the step invariant. -/
theorem targetsFold_step (p : ReallocationPolicyData) (s : String)
    (mains : List (String × String)) (ts : List (String × String × ℚ)) :
    ∀ st : EngSt, (∀ t ∈ ts, dget mains t.1 = some t.2.1) →
      Step p s mains st (targetsFold p mains s ts st) := by
  induction ts with
  | nil =>
    intro st _
    simp only [targetsFold]
    exact Step_refl p s mains st
  | cons t rest ih =>
    intro st hts
    simp only [targetsFold]
    exact Step_trans
      (fillTarget_step p s mains t.1 t.2.1 t.2.2 st (hts t (List.mem_cons_self _ _)))
      (ih _ (fun x hx => hts x (List.mem_cons_of_mem _ hx)))

/-- Every collected shortage target is a `warehouse_main_channels` entry. -/
theorem mem_collectShortages {cells : List (Key × CellState)}
    {mains : List (String × String)} {t : String × String × ℚ}
    (h : t ∈ collectShortages cells mains) : (t.1, t.2.1) ∈ mains := by
  unfold collectShortages at h
  rcases List.mem_filterMap.mp h with ⟨wm, hwm, hf⟩
  rcases hdg : dget cells (wm.1, wm.2) with _ | c
  · rw [hdg] at hf
    exact absurd hf (by simp)
  · rw [hdg] at hf
    dsimp only at hf
    split at hf
    · split at hf
      · have he := Option.some_inj.mp hf
        rw [← he]
        exact hwm
      · exact absurd hf (by simp)
    · split at hf
      · have he := Option.some_inj.mp hf
        rw [← he]
        exact hwm
      · exact absurd hf (by simp)

/-- The greedy strategy for one SKU satisfies the step invariant (for a
duplicate-free main-channel map, i.e. a real Python dict). -/
theorem greedySku_step (p : ReallocationPolicyData) (s : String)
    (mains : List (String × String)) (st : EngSt) (hnud : KeysNodup mains) :
    Step p s mains st (greedySku p mains s st) := by
  unfold greedySku
  apply targetsFold_step
  intro t ht
  rw [mem_sortDescBy] at ht
  exact dget_of_mem_mains mains hnud (mem_collectShortages ht)

/-! ## Lemmas: fair-share strategy steps -/

/-- A cell with positive available surplus has a positive stored gap (its
surplus pool `max gap 0` must be positive). -/
theorem gap_pos_of_avail_pos {p : ReallocationPolicyData} {c : CellState}
    (hinv : StInvP p c) (h : 0 < c.available_surplus) : 0 < c.gap := by
  have hs : 0 < c.surplus_remaining := by
    unfold CellState.available_surplus at h
    by_cases h1 : c.stock_at_anchor - c.allocated_out ≤ 0
    · rw [if_pos h1] at h
      linarith
    · rw [if_neg h1] at h
      by_cases h2 : c.surplus_remaining ≤ 0
      · rw [if_pos h2] at h
        linarith
      · linarith [lt_of_not_le h2]
  obtain ⟨h1, _, _, h4, _, _⟩ := hinv
  by_cases hg : c.gap ≤ 0
  · rw [max_eq_right hg] at h4
    linarith
  · exact lt_of_not_le hg

/-- `RecvGap` is preserved by engine steps (domain and `gap` are static). -/
theorem RecvGap_of_step {p : ReallocationPolicyData} {s : String}
    {mains : List (String × String)} {a b : EngSt} (h : Step p s mains a b)
    {r : FSReceiver} (hr : RecvGap a.cells r) : RecvGap b.cells r := by
  obtain ⟨d, _, _, hc, _⟩ := h
  obtain ⟨c, hc2, hg⟩ := hr
  obtain ⟨c2, hc3, _, _, hgap, _, _, _⟩ := (hc r.key).2 c hc2
  exact ⟨c2, hc3, by rw [hgap]; exact hg⟩

/-- `next_receiver_with_need` returns a member of the receiver order. -/
theorem nextReceiver_mem {rOrder : List FSReceiver} {plan : List (Key × ℚ)}
    {r : FSReceiver} (h : nextReceiver rOrder plan = some r) : r ∈ rOrder := by
  induction rOrder with
  | nil => exact absurd h (by simp [nextReceiver])
  | cons x t ih =>
    unfold nextReceiver at h
    split at h
    · exact (Option.some_inj.mp h) ▸ List.mem_cons_self _ _
    · exact List.mem_cons_of_mem _ (ih h)

/-- Every collected fair-share receiver has an existing cell with a negative
stored gap. -/
theorem mem_collectReceivers {p : ReallocationPolicyData}
    {cells : List (Key × CellState)} {mains : List (String × String)}
    {r : FSReceiver} (h : r ∈ collectReceivers p cells mains) :
    RecvGap cells r := by
  unfold collectReceivers at h
  rcases List.mem_filterMap.mp h with ⟨wm, hwm, hf⟩
  rcases hdg : dget cells (wm.1, wm.2) with _ | c
  · rw [hdg] at hf
    exact absurd hf (by simp)
  · rw [hdg] at hf
    dsimp only at hf
    by_cases hg : c.gap < 0
    · rw [if_pos hg] at hf
      by_cases h2 : 0 - c.gap ≤ 0
      · rw [if_pos h2] at hf
        exact absurd hf (by simp)
      · rw [if_neg h2] at hf
        by_cases hstd : c.stdstock > 0
        · rw [if_pos hstd] at hf
          rw [if_neg (by linarith : ¬ c.stdstock ≤ 0)] at hf
          by_cases hov : p.allow_overfill = false
          · rw [if_pos hov] at hf
            by_cases hcap : c.remaining_capacity ≤ 0
            · rw [if_pos hcap] at hf
              exact absurd hf (by simp)
            · rw [if_neg hcap] at hf
              have he := Option.some_inj.mp hf
              refine ⟨c, ?_, hg⟩
              rw [← he]
              exact hdg
          · rw [if_neg hov] at hf
            have he := Option.some_inj.mp hf
            refine ⟨c, ?_, hg⟩
            rw [← he]
            exact hdg
        · rw [if_neg hstd] at hf
          rw [if_pos (le_refl (0 : ℚ))] at hf
          exact absurd hf (by simp)
    · rw [if_neg hg] at hf
      rw [if_pos (le_refl (0 : ℚ))] at hf
      exact absurd hf (by simp)

/-- The donor scan classifies its non-main pool correctly. -/
theorem fsDonorScan_nonmain (p : ReallocationPolicyData)
    (mains : List (String × String)) (cells : List (Key × CellState)) :
    ∀ kc ∈ (fsDonorScan p mains cells).1, ¬ dget mains kc.1.1 = some kc.1.2 := by
  unfold fsDonorScan
  suffices h : ∀ acc : List (Key × CellState) × List (Key × CellState) × ℚ,
      (∀ kc ∈ acc.1, ¬ dget mains kc.1.1 = some kc.1.2) →
      ∀ kc ∈ (cells.foldl
        (fun acc kc =>
          let a := kc.2.available_surplus
          if a ≤ 0 then acc
          else if dget mains kc.1.1 = some kc.1.2 then
            if p.take_from_other_main then (acc.1, acc.2.1 ++ [kc], acc.2.2 + a) else acc
          else (acc.1 ++ [kc], acc.2.1, acc.2.2 + a)) acc).1,
        ¬ dget mains kc.1.1 = some kc.1.2 by
    exact h ([], [], 0) (by simp)
  induction cells with
  | nil =>
    intro acc hacc
    simpa using hacc
  | cons x t ih =>
    intro acc hacc
    rw [List.foldl_cons]
    apply ih
    dsimp only
    by_cases h1 : x.2.available_surplus ≤ 0
    · rw [if_pos h1]
      exact hacc
    · rw [if_neg h1]
      by_cases h2 : dget mains x.1.1 = some x.1.2
      · rw [if_pos h2]
        by_cases h3 : p.take_from_other_main = true
        · rw [if_pos h3]
          exact hacc
        · rw [if_neg h3]
          exact hacc
      · rw [if_neg h2]
        intro kc hkc
        rcases List.mem_append.mp hkc with hm | hm
        · exact hacc kc hm
        · rw [List.mem_singleton.mp hm]
          exact h2

/-- `commit_move` satisfies the step invariant. -/
theorem commitMove_step (p : ReallocationPolicyData) (s : String)
    (mains : List (String × String)) (reason : String) (d : Key) (dc : CellState)
    (r : FSReceiver) (rc : CellState) (qty : ℚ) (ex : FSExec)
    (hd : dget ex.eng.cells d = some dc) (hr : dget ex.eng.cells r.key = some rc)
    (hne : d ≠ r.key) (hq : ∃ n : ℤ, 0 < n ∧ qty = (n : ℚ))
    (hle : qty ≤ dc.available_surplus)
    (hcap : p.allow_overfill = false → qty ≤ rc.remaining_capacity)
    (hmain : p.take_from_other_main = false → ¬ dget mains d.1 = some d.2) :
    Step p s mains ex.eng (commitMove s reason d dc r rc qty ex).eng :=
  Step_commit p s mains ex.eng d r.key dc rc qty reason hd hr hne hq hle hcap hmain

/-- A donor key with positive surplus cannot be a collected receiver's cell:
donors need a positive gap, receivers a negative one. -/
theorem donor_ne_receiver {p : ReallocationPolicyData}
    {cells : List (Key × CellState)} {d : Key} {dc : CellState} {r : FSReceiver}
    (hinv : InvCells p cells) (hd : dget cells d = some dc)
    (hav : 0 < dc.available_surplus) (hr : RecvGap cells r) : d ≠ r.key := by
  intro he
  obtain ⟨c, hc, hg⟩ := hr
  rw [← he, hd] at hc
  have hcd : dc = c := Option.some_inj.mp hc
  have := gap_pos_of_avail_pos (hinv d dc hd) hav
  rw [hcd] at this
  linarith

/-- The intra-warehouse donor loop of one receiver satisfies the step
invariant. -/
theorem fsIntraDonors_step (p : ReallocationPolicyData) (s : String)
    (mains : List (String × String)) (r : FSReceiver) (donors : List Key) :
    ∀ ex : FSExec, InvCells p ex.eng.cells → RecvGap ex.eng.cells r →
      (∀ d ∈ donors, p.take_from_other_main = false → ¬ dget mains d.1 = some d.2) →
      Step p s mains ex.eng (fsIntraDonors p s r donors ex).eng := by
  induction donors with
  | nil =>
    intro ex _ _ _
    simp only [fsIntraDonors]
    exact Step_refl p s mains ex.eng
  | cons d rest ih =>
    intro ex hinv hrg hdon
    have hd1 := hdon d (List.mem_cons_self _ _)
    have hrest : ∀ x ∈ rest, p.take_from_other_main = false →
        ¬ dget mains x.1 = some x.2 :=
      fun x hx => hdon x (List.mem_cons_of_mem _ hx)
    by_cases hbrk : (dget ex.remPlan r.key).getD 0 ≤ 0 ∨ ex.remTotal ≤ 0
    · simp only [fsIntraDonors, if_pos hbrk]
      exact Step_refl p s mains ex.eng
    · cases hdg : dget ex.eng.cells d with
      | none =>
        cases hrc : dget ex.eng.cells r.key with
        | none =>
          simp only [fsIntraDonors, if_neg hbrk, hdg, hrc]
          exact ih ex hinv hrg hrest
        | some rc =>
          simp only [fsIntraDonors, if_neg hbrk, hdg, hrc]
          exact ih ex hinv hrg hrest
      | some dc =>
        cases hrc : dget ex.eng.cells r.key with
        | none =>
          simp only [fsIntraDonors, if_neg hbrk, hdg, hrc]
          exact ih ex hinv hrg hrest
        | some rc =>
          by_cases hav : dc.available_surplus ≤ 0
          · simp only [fsIntraDonors, if_neg hbrk, hdg, hrc, if_pos hav]
            exact ih ex hinv hrg hrest
          · by_cases hov : p.allow_overfill = false
            · simp only [fsIntraDonors, if_neg hbrk, hdg, hrc, if_neg hav, if_pos hov]
              set qty1 := min (min dc.available_surplus
                ((dget ex.remPlan r.key).getD 0)) rc.remaining_capacity with hq1
              by_cases hqty : qfloor qty1 ≤ 0
              · simp only [if_pos hqty]
                exact ih ex hinv hrg hrest
              · simp only [if_neg hqty]
                have hstep := commitMove_step p s mains "fill main channel (intra)"
                  d dc r rc (qfloor qty1) ex hdg hrc
                  (donor_ne_receiver hinv hdg (lt_of_not_le hav) hrg)
                  (posInt_of_pos (lt_of_not_le hqty) (isInt_qfloor _))
                  (by
                    have h1 := qfloor_le qty1
                    have h2 : qty1 ≤ dc.available_surplus := by
                      rw [hq1]
                      exact le_trans (min_le_left _ _) (min_le_left _ _)
                    linarith)
                  (by
                    intro _
                    have h1 := qfloor_le qty1
                    have h2 : qty1 ≤ rc.remaining_capacity := by
                      rw [hq1]
                      exact min_le_right _ _
                    linarith)
                  hd1
                have hinv2 : InvCells p (commitMove s "fill main channel (intra)"
                    d dc r rc (qfloor qty1) ex).eng.cells := by
                  obtain ⟨_, _, _, _, himp⟩ := hstep
                  exact himp hinv
                exact Step_trans hstep (ih _ hinv2 (RecvGap_of_step hstep hrg) hrest)
            · simp only [fsIntraDonors, if_neg hbrk, hdg, hrc, if_neg hav, if_neg hov]
              set qty1 := min dc.available_surplus
                ((dget ex.remPlan r.key).getD 0) with hq1
              by_cases hqty : qfloor qty1 ≤ 0
              · simp only [if_pos hqty]
                exact ih ex hinv hrg hrest
              · simp only [if_neg hqty]
                have hstep := commitMove_step p s mains "fill main channel (intra)"
                  d dc r rc (qfloor qty1) ex hdg hrc
                  (donor_ne_receiver hinv hdg (lt_of_not_le hav) hrg)
                  (posInt_of_pos (lt_of_not_le hqty) (isInt_qfloor _))
                  (by
                    have h1 := qfloor_le qty1
                    have h2 : qty1 ≤ dc.available_surplus := by
                      rw [hq1]
                      exact min_le_left _ _
                    linarith)
                  (fun hcon => absurd hcon hov)
                  hd1
                have hinv2 : InvCells p (commitMove s "fill main channel (intra)"
                    d dc r rc (qfloor qty1) ex).eng.cells := by
                  obtain ⟨_, _, _, _, himp⟩ := hstep
                  exact himp hinv
                exact Step_trans hstep (ih _ hinv2 (RecvGap_of_step hstep hrg) hrest)

/-- The `while` loop draining one inter-warehouse donor satisfies the step
invariant. -/
theorem fsInterDonor_step (p : ReallocationPolicyData) (s : String)
    (mains : List (String × String)) (reason : String)
    (rOrder : List FSReceiver) (d : Key)
    (hdon : p.take_from_other_main = false → ¬ dget mains d.1 = some d.2) :
    ∀ (fuel : Nat) (ex : FSExec), InvCells p ex.eng.cells →
      (∀ r ∈ rOrder, RecvGap ex.eng.cells r) →
      Step p s mains ex.eng (fsInterDonor p s reason rOrder d fuel ex).eng := by
  intro fuel
  induction fuel with
  | zero =>
    intro ex _ _
    simp only [fsInterDonor]
    exact Step_refl p s mains ex.eng
  | succ n ih =>
    intro ex hinv hrg
    cases hdg : dget ex.eng.cells d with
    | none =>
      simp only [fsInterDonor, hdg]
      exact Step_refl p s mains ex.eng
    | some dc =>
      by_cases hcond : 0 < dc.available_surplus ∧ 0 < ex.remTotal
      · cases hnr : nextReceiver rOrder ex.remPlan with
        | none =>
          simp only [fsInterDonor, hdg, if_pos hcond, hnr]
          exact Step_refl p s mains ex.eng
        | some r =>
          have hrmem := nextReceiver_mem hnr
          cases hrc : dget ex.eng.cells r.key with
          | none =>
            simp only [fsInterDonor, hdg, if_pos hcond, hnr, hrc]
            exact Step_refl p s mains ex.eng
          | some rc =>
            by_cases hov : p.allow_overfill = false
            · simp only [fsInterDonor, hdg, if_pos hcond, hnr, hrc, if_pos hov]
              set qty1 := min (min dc.available_surplus
                ((dget ex.remPlan r.key).getD 0)) rc.remaining_capacity with hq1
              by_cases hqty : qfloor qty1 ≤ 0
              · simp only [if_pos hqty]
                exact Step_refl p s mains ex.eng
              · simp only [if_neg hqty]
                have hstep := commitMove_step p s mains reason d dc r rc
                  (qfloor qty1) ex hdg hrc
                  (donor_ne_receiver hinv hdg hcond.1 (hrg r hrmem))
                  (posInt_of_pos (lt_of_not_le hqty) (isInt_qfloor _))
                  (by
                    have h1 := qfloor_le qty1
                    have h2 : qty1 ≤ dc.available_surplus := by
                      rw [hq1]
                      exact le_trans (min_le_left _ _) (min_le_left _ _)
                    linarith)
                  (by
                    intro _
                    have h1 := qfloor_le qty1
                    have h2 : qty1 ≤ rc.remaining_capacity := by
                      rw [hq1]
                      exact min_le_right _ _
                    linarith)
                  hdon
                have hinv2 : InvCells p
                    (commitMove s reason d dc r rc (qfloor qty1) ex).eng.cells := by
                  obtain ⟨_, _, _, _, himp⟩ := hstep
                  exact himp hinv
                exact Step_trans hstep
                  (ih _ hinv2 (fun x hx => RecvGap_of_step hstep (hrg x hx)))
            · simp only [fsInterDonor, hdg, if_pos hcond, hnr, hrc, if_neg hov]
              set qty1 := min dc.available_surplus
                ((dget ex.remPlan r.key).getD 0) with hq1
              by_cases hqty : qfloor qty1 ≤ 0
              · simp only [if_pos hqty]
                exact Step_refl p s mains ex.eng
              · simp only [if_neg hqty]
                have hstep := commitMove_step p s mains reason d dc r rc
                  (qfloor qty1) ex hdg hrc
                  (donor_ne_receiver hinv hdg hcond.1 (hrg r hrmem))
                  (posInt_of_pos (lt_of_not_le hqty) (isInt_qfloor _))
                  (by
                    have h1 := qfloor_le qty1
                    have h2 : qty1 ≤ dc.available_surplus := by
                      rw [hq1]
                      exact min_le_left _ _
                    linarith)
                  (fun hcon => absurd hcon hov)
                  hdon
                have hinv2 : InvCells p
                    (commitMove s reason d dc r rc (qfloor qty1) ex).eng.cells := by
                  obtain ⟨_, _, _, _, himp⟩ := hstep
                  exact himp hinv
                exact Step_trans hstep
                  (ih _ hinv2 (fun x hx => RecvGap_of_step hstep (hrg x hx)))
      · simp only [fsInterDonor, hdg, if_neg hcond]
        exact Step_refl p s mains ex.eng

/-- One inter-warehouse bucket phase satisfies the step invariant. -/
theorem fsInterPhase_step (p : ReallocationPolicyData) (s : String)
    (mains : List (String × String)) (reason : String)
    (rOrder : List FSReceiver) (donors : List Key) :
    ∀ ex : FSExec, InvCells p ex.eng.cells →
      (∀ r ∈ rOrder, RecvGap ex.eng.cells r) →
      (∀ d ∈ donors, p.take_from_other_main = false → ¬ dget mains d.1 = some d.2) →
      Step p s mains ex.eng (fsInterPhase p s reason rOrder donors ex).eng := by
  induction donors with
  | nil =>
    intro ex _ _ _
    simp only [fsInterPhase, List.foldl_nil]
    exact Step_refl p s mains ex.eng
  | cons d rest ih =>
    intro ex hinv hrg hdon
    simp only [fsInterPhase, List.foldl_cons]
    have hstep := fsInterDonor_step p s mains reason rOrder d
      (hdon d (List.mem_cons_self _ _)) (fuelOf ex.remTotal) ex hinv hrg
    have hinv2 : InvCells p
        (fsInterDonor p s reason rOrder d (fuelOf ex.remTotal) ex).eng.cells := by
      obtain ⟨_, _, _, _, himp⟩ := hstep
      exact himp hinv
    have h := ih (fsInterDonor p s reason rOrder d (fuelOf ex.remTotal) ex) hinv2
      (fun x hx => RecvGap_of_step hstep (hrg x hx))
      (fun x hx => hdon x (List.mem_cons_of_mem _ hx))
    simp only [fsInterPhase] at h
    exact Step_trans hstep h

/-- The receiver-by-receiver intra phase satisfies the step invariant. -/
theorem fsIntraFold_step (p : ReallocationPolicyData) (s : String)
    (mains : List (String × String)) (intraFor : String → List Key)
    (rOrder : List FSReceiver) :
    ∀ ex : FSExec, InvCells p ex.eng.cells →
      (∀ r ∈ rOrder, RecvGap ex.eng.cells r) →
      (∀ wh, ∀ d ∈ intraFor wh, p.take_from_other_main = false →
        ¬ dget mains d.1 = some d.2) →
      Step p s mains ex.eng
        (rOrder.foldl (fun ex r => fsIntraDonors p s r (intraFor r.warehouse) ex)
          ex).eng := by
  induction rOrder with
  | nil =>
    intro ex _ _ _
    rw [List.foldl_nil]
    exact Step_refl p s mains ex.eng
  | cons r rest ih =>
    intro ex hinv hrg hgate
    rw [List.foldl_cons]
    have hstep := fsIntraDonors_step p s mains r (intraFor r.warehouse) ex hinv
      (hrg r (List.mem_cons_self _ _)) (fun d hd => hgate r.warehouse d hd)
    have hinv2 : InvCells p (fsIntraDonors p s r (intraFor r.warehouse) ex).eng.cells := by
      obtain ⟨_, _, _, _, himp⟩ := hstep
      exact himp hinv
    exact Step_trans hstep (ih _ hinv2
      (fun x hx => RecvGap_of_step hstep (hrg x (List.mem_cons_of_mem _ hx))) hgate)

/-- The three execution phases of the fair-share strategy satisfy the step
invariant. -/
theorem fsExec_step (p : ReallocationPolicyData) (s : String)
    (mains : List (String × String)) (rOrder : List FSReceiver)
    (intraFor : String → List Key) (nmKeys imKeys : List Key) (ex0 : FSExec)
    (hinv : InvCells p ex0.eng.cells)
    (hrg : ∀ r ∈ rOrder, RecvGap ex0.eng.cells r)
    (hgi : ∀ wh, ∀ d ∈ intraFor wh, p.take_from_other_main = false →
      ¬ dget mains d.1 = some d.2)
    (hgn : ∀ d ∈ nmKeys, p.take_from_other_main = false →
      ¬ dget mains d.1 = some d.2) :
    Step p s mains ex0.eng (fsRunPhases p s rOrder intraFor nmKeys imKeys ex0).eng := by
  unfold fsRunPhases
  dsimp only
  have hstep1 := fsIntraFold_step p s mains intraFor rOrder ex0 hinv hrg hgi
  set ex1 := rOrder.foldl (fun ex r => fsIntraDonors p s r (intraFor r.warehouse) ex) ex0
    with hex1
  have hinv1 : InvCells p ex1.eng.cells := by
    obtain ⟨_, _, _, _, himp⟩ := hstep1
    exact himp hinv
  have hrg1 : ∀ r ∈ rOrder, RecvGap ex1.eng.cells r :=
    fun x hx => RecvGap_of_step hstep1 (hrg x hx)
  by_cases hc2 : ex1.remTotal > 0
  · rw [if_pos hc2]
    have hstep2 := fsInterPhase_step p s mains "fill main channel (inter non-main)"
      rOrder nmKeys ex1 hinv1 hrg1 hgn
    set ex2 := fsInterPhase p s "fill main channel (inter non-main)" rOrder nmKeys ex1
      with hex2
    have hinv2 : InvCells p ex2.eng.cells := by
      obtain ⟨_, _, _, _, himp⟩ := hstep2
      exact himp hinv1
    have hrg2 : ∀ r ∈ rOrder, RecvGap ex2.eng.cells r :=
      fun x hx => RecvGap_of_step hstep2 (hrg1 x hx)
    by_cases hc3 : ex2.remTotal > 0 ∧ p.take_from_other_main = true
    · rw [if_pos hc3]
      have hgm : ∀ d ∈ imKeys, p.take_from_other_main = false →
          ¬ dget mains d.1 = some d.2 := by
        intro d _ hcon
        rw [hcon] at hc3
        exact absurd hc3.2 (by simp)
      exact Step_trans (Step_trans hstep1 hstep2)
        (fsInterPhase_step p s mains "fill main channel (inter main)" rOrder imKeys
          ex2 hinv2 hrg2 hgm)
    · rw [if_neg hc3]
      exact Step_trans hstep1 hstep2
  · rw [if_neg hc2]
    by_cases hc3 : ex1.remTotal > 0 ∧ p.take_from_other_main = true
    · rw [if_pos hc3]
      have hgm : ∀ d ∈ imKeys, p.take_from_other_main = false →
          ¬ dget mains d.1 = some d.2 := by
        intro d _ hcon
        rw [hcon] at hc3
        exact absurd hc3.2 (by simp)
      exact Step_trans hstep1
        (fsInterPhase_step p s mains "fill main channel (inter main)" rOrder imKeys
          ex1 hinv1 hrg1 hgm)
    · rw [if_neg hc3]
      exact hstep1

/-- `fairShareCore` satisfies the step invariant. -/
theorem fairShareCore_step (p : ReallocationPolicyData) (s : String)
    (mains : List (String × String)) (st : EngSt) (receivers : List FSReceiver)
    (nonmainSorted interMainSorted : List (Key × CellState)) (eff : ℚ)
    (hinv : InvCells p st.cells)
    (hrg : ∀ r ∈ receivers, RecvGap st.cells r)
    (hnm : ∀ kc ∈ nonmainSorted, ¬ dget mains kc.1.1 = some kc.1.2) :
    Step p s mains st
      (fairShareCore p s st receivers nonmainSorted interMainSorted eff) := by
  unfold fairShareCore
  apply fsExec_step p s mains
  · exact hinv
  · intro r hr
    rw [mem_sortAscBy] at hr
    exact hrg r hr
  · intro wh d hd _
    rcases List.mem_map.mp hd with ⟨kc, hkc, rfl⟩
    rw [mem_sortDescBy] at hkc
    exact hnm kc (List.mem_filter.mp hkc).1
  · intro d hd _
    rcases List.mem_map.mp hd with ⟨kc, hkc, rfl⟩
    exact hnm kc hkc

/-- `_recommend_fair_share` for one SKU satisfies the step invariant. -/
theorem fairShareSku_step (p : ReallocationPolicyData) (s : String)
    (mains : List (String × String)) (st : EngSt) (hinv : InvCells p st.cells) :
    Step p s mains st (fairShareSku p mains s st) := by
  unfold fairShareSku
  dsimp only
  by_cases hr0 : collectReceivers p st.cells mains = []
  · rw [if_pos hr0]
    exact Step_refl p s mains st
  · rw [if_neg hr0]
    have hrg : ∀ r ∈ collectReceivers p st.cells mains, RecvGap st.cells r :=
      fun r hr => mem_collectReceivers hr
    have hnm : ∀ kc ∈ sortDescBy (fun kc => kc.2.available_surplus)
        (fsDonorScan p mains st.cells).1, ¬ dget mains kc.1.1 = some kc.1.2 := by
      intro kc hkc
      rw [mem_sortDescBy] at hkc
      exact fsDonorScan_nonmain p mains st.cells kc hkc
    by_cases ht : (fsDonorScan p mains st.cells).2.2 ≤ 0
    · rw [if_pos ht]
      exact Step_refl p s mains st
    · rw [if_neg ht]
      by_cases hov : p.allow_overfill = false
      · rw [if_pos hov]
        by_cases hcap : ((collectReceivers p st.cells mains).map
            (fun r => r.max_receivable.getD 0)).sum ≤ 0
        · rw [if_pos hcap]
          exact Step_refl p s mains st
        · rw [if_neg hcap]
          exact fairShareCore_step p s mains st _ _ _ _ hinv hrg hnm
      · rw [if_neg hov]
        exact fairShareCore_step p s mains st _ _ _ _ hinv hrg hnm

/-- Each per-SKU dispatch is an engine step whose result list is the step's
final move list. -/
theorem processSku_step (p : ReallocationPolicyData)
    (mains : List (String × String)) (s : String) (cells : List (Key × CellState))
    (recs : List RecommendedMove) (hnud : KeysNodup mains)
    (hinv : InvCells p cells) :
    ∃ stf : EngSt, Step p s mains ⟨cells, recs⟩ stf ∧
      processSku p mains s cells recs = stf.recs := by
  by_cases hm : p.fair_share_mode ≠ FairShareMode.off
  · exact ⟨fairShareSku p mains s ⟨cells, recs⟩,
      fairShareSku_step p s mains ⟨cells, recs⟩ hinv,
      by unfold processSku; rw [if_pos hm]⟩
  · exact ⟨greedySku p mains s ⟨cells, recs⟩,
      greedySku_step p s mains ⟨cells, recs⟩ hnud,
      by unfold processSku; rw [if_neg hm]⟩

/-! ## Lemmas: the grouped input -/

theorem mem_of_dget {κ α : Type} [DecidableEq κ] {l : List (κ × α)} {k : κ} {v : α}
    (h : dget l k = some v) : (k, v) ∈ l := by
  induction l with
  | nil => exact absurd h (by simp [dget])
  | cons hd t ih =>
    unfold dget at h
    by_cases hk : hd.1 = k
    · rw [if_pos hk] at h
      have hv := Option.some_inj.mp h
      rw [← hk, ← hv]
      exact List.mem_cons_self _ _
    · rw [if_neg hk] at h
      exact List.mem_cons_of_mem _ (ih h)

theorem mem_dput {κ α : Type} [DecidableEq κ] {l : List (κ × α)} {k : κ} {v : α}
    {x : κ × α} (h : x ∈ dput l k v) : x ∈ l ∨ x = (k, v) := by
  induction l with
  | nil =>
    simp only [dput, List.mem_singleton] at h
    exact Or.inr h
  | cons hd t ih =>
    unfold dput at h
    by_cases hk : hd.1 = k
    · rw [if_pos hk] at h
      rcases List.mem_cons.mp h with he | hm
      · right
        rw [he, hk]
      · left
        exact List.mem_cons_of_mem _ hm
    · rw [if_neg hk] at h
      rcases List.mem_cons.mp h with he | hm
      · left
        rw [he]
        exact List.mem_cons_self _ _
      · rcases ih hm with h2 | h2
        · exact Or.inl (List.mem_cons_of_mem _ h2)
        · exact Or.inr h2

theorem keysNodup_buildCells (rows : List MatrixRowData) :
    KeysNodup (buildCells rows) := by
  unfold buildCells
  suffices h : ∀ acc : List (String × List (Key × CellState)), KeysNodup acc →
      KeysNodup (rows.foldl insertRow acc) by
    exact h [] (by simp [KeysNodup])
  induction rows with
  | nil =>
    intro acc hacc
    exact hacc
  | cons r t ih =>
    intro acc hacc
    rw [List.foldl_cons]
    exact ih _ (keysNodup_dput _ _ _ hacc)

theorem buildCells_value (rows : List MatrixRowData) :
    ∀ e ∈ buildCells rows, ∀ kc ∈ e.2, ∃ r : MatrixRowData, kc.2 = rowCell r := by
  unfold buildCells
  suffices h : ∀ acc : List (String × List (Key × CellState)),
      (∀ e ∈ acc, ∀ kc ∈ e.2, ∃ r : MatrixRowData, kc.2 = rowCell r) →
      ∀ e ∈ rows.foldl insertRow acc, ∀ kc ∈ e.2,
        ∃ r : MatrixRowData, kc.2 = rowCell r by
    exact h [] (by simp)
  induction rows with
  | nil =>
    intro acc hacc
    exact hacc
  | cons r t ih =>
    intro acc hacc
    rw [List.foldl_cons]
    apply ih
    intro e he kc hkc
    rcases mem_dput he with hmem | hmem
    · exact hacc e hmem kc hkc
    · rw [hmem] at hkc
      dsimp only at hkc
      rcases mem_dput hkc with hmem2 | hmem2
      · rcases hdg : dget acc r.sku_code with _ | i
        · rw [hdg] at hmem2
          simp at hmem2
        · rw [hdg] at hmem2
          exact hacc (r.sku_code, i) (mem_of_dget hdg) kc hmem2
      · exact ⟨r, by rw [hmem2]⟩

theorem buildCells_inner_nodup (rows : List MatrixRowData) :
    ∀ e ∈ buildCells rows, KeysNodup e.2 := by
  unfold buildCells
  suffices h : ∀ acc : List (String × List (Key × CellState)),
      (∀ e ∈ acc, KeysNodup e.2) →
      ∀ e ∈ rows.foldl insertRow acc, KeysNodup e.2 by
    exact h [] (by simp)
  induction rows with
  | nil =>
    intro acc hacc
    exact hacc
  | cons r t ih =>
    intro acc hacc
    rw [List.foldl_cons]
    apply ih
    intro e he
    rcases mem_dput he with hmem | hmem
    · exact hacc e hmem
    · rw [hmem]
      apply keysNodup_dput
      rcases hdg : dget acc r.sku_code with _ | i
      · simp [KeysNodup]
      · exact hacc (r.sku_code, i) (mem_of_dget hdg)

theorem rowCell_out (r : MatrixRowData) : (rowCell r).allocated_out = 0 := rfl

theorem rowCell_in (r : MatrixRowData) : (rowCell r).allocated_in = 0 := rfl

theorem StInvP_rowCell (p : ReallocationPolicyData) (r : MatrixRowData) :
    StInvP p (rowCell r) := by
  unfold StInvP rowCell CellState.init
  refine ⟨le_refl 0, le_refl 0, ?_, ?_, ?_, ?_⟩
  · dsimp only
    split
    · linarith [‹r.gap > 0›]
    · exact le_refl 0
  · dsimp only
    split
    · rw [add_zero]
      exact le_max_left _ _
    · rw [add_zero]
      exact le_max_right _ _
  · dsimp only
    split
    · linarith [‹r.stock_at_anchor > 0›]
    · exact le_refl 0
  · intro _
    dsimp only
    exact le_max_left _ _

/-! ## The global run lemma -/

/-- Folding the per-SKU strategies over key-unique SKU entries (with
freshly-built cells) appends a batch of moves that respects, per SKU and per
cell, the donor-conservation and receiver-capacity bounds, and whose every
move carries its SKU and the policy gates. -/
theorem runFold_spec (p : ReallocationPolicyData) (mains : List (String × String))
    (hnud : KeysNodup mains) (es : List (String × List (Key × CellState))) :
    ∀ recs : List RecommendedMove,
      KeysNodup es →
      (∀ e ∈ es, InvCells p e.2) →
      (∀ e ∈ es, ∀ k c, dget e.2 k = some c →
        c.allocated_out = 0 ∧ c.allocated_in = 0) →
      ∃ d : List RecommendedMove,
        es.foldl (fun recs e => processSku p mains e.1 e.2 recs) recs = recs ++ d ∧
        (∀ m ∈ d, ∃ e ∈ es, MoveOkP p e.1 mains m) ∧
        (∀ e ∈ es, ∀ k c, dget e.2 k = some c →
          movesOutQ d e.1 k ≤ min (max c.gap 0) c.stock_at_anchor ∧
          (p.allow_overfill = false →
            movesInQ d e.1 k ≤ max 0 (c.stdstock - c.stock_closing))) := by
  induction es with
  | nil =>
    intro recs _ _ _
    exact ⟨[], by simp, by simp, by simp⟩
  | cons e rest ih =>
    intro recs hnes hinv hzero
    have hinve := hinv e (List.mem_cons_self _ _)
    obtain ⟨stf, hstep, heq⟩ := processSku_step p mains e.1 e.2 recs hnud hinve
    obtain ⟨de, hrecs, hmok, hcells, hinvf⟩ := hstep
    obtain ⟨dr, hfold, hmokr, hboundr⟩ := ih stf.recs
      ((List.nodup_cons.mp hnes).2)
      (fun x hx => hinv x (List.mem_cons_of_mem _ hx))
      (fun x hx => hzero x (List.mem_cons_of_mem _ hx))
    have hesku : e.1 ∉ rest.map Prod.fst := (List.nodup_cons.mp hnes).1
    have hdr_ne : ∀ m ∈ dr, m.sku_code ≠ e.1 := by
      intro m hm hcon
      obtain ⟨e2, he2, hok⟩ := hmokr m hm
      rw [hok.1] at hcon
      exact hesku (hcon ▸ List.mem_map.mpr ⟨e2, he2, rfl⟩)
    have hde_sku : ∀ m ∈ de, m.sku_code = e.1 := fun m hm => (hmok m hm).1
    refine ⟨de ++ dr, ?_, ?_, ?_⟩
    · rw [List.foldl_cons]
      have hst : stf.recs = recs ++ de := hrecs
      have h1 : processSku p mains e.1 e.2 recs = recs ++ de := heq.trans hst
      rw [h1, ← List.append_assoc, ← hst]
      exact hfold
    · intro m hm
      rcases List.mem_append.mp hm with h | h
      · exact ⟨e, List.mem_cons_self _ _, hmok m h⟩
      · obtain ⟨e2, he2, hok⟩ := hmokr m h
        exact ⟨e2, List.mem_cons_of_mem _ he2, hok⟩
    · intro e2 he2 k c hkc
      rcases List.mem_cons.mp he2 with rfl | he2m
      · have hz := hzero e2 (List.mem_cons_self _ _) k c hkc
        obtain ⟨cf, hcf, hfa, hfs, hfg, hfc, hfo, hfi⟩ := (hcells k).2 c hkc
        have hicf := hinvf hinve _ _ hcf
        obtain ⟨i1, i2, i3, i4, i5, i6⟩ := hicf
        have hdr0 : movesOutQ dr e2.1 k = 0 :=
          movesOutQ_eq_zero_of_sku dr e2.1 k hdr_ne
        have hdr0i : movesInQ dr e2.1 k = 0 :=
          movesInQ_eq_zero_of_sku dr e2.1 k hdr_ne
        constructor
        · rw [movesOutQ_append, hdr0, add_zero]
          have hout : movesOutQ de e2.1 k = cf.allocated_out := by
            rw [hfo, hz.1, zero_add]
          rw [hout]
          apply le_min
          · rw [← hfg]
            linarith
          · rw [← hfa]
            linarith
        · intro hov
          rw [movesInQ_append, hdr0i, add_zero]
          have hin : movesInQ de e2.1 k = cf.allocated_in := by
            rw [hfi, hz.2, zero_add]
          rw [hin, ← hfs, ← hfc]
          exact i6 hov
      · have hb := hboundr e2 he2m k c hkc
        have he2ne : e2.1 ≠ e.1 := by
          intro hcon
          exact hesku (hcon ▸ List.mem_map.mpr ⟨e2, he2m, rfl⟩)
        have hde0 : movesOutQ de e2.1 k = 0 := by
          apply movesOutQ_eq_zero_of_sku
          intro m hm hcon
          exact he2ne ((hde_sku m hm ▸ hcon).symm ▸ rfl)
        have hde0i : movesInQ de e2.1 k = 0 := by
          apply movesInQ_eq_zero_of_sku
          intro m hm hcon
          exact he2ne ((hde_sku m hm ▸ hcon).symm ▸ rfl)
        constructor
        · rw [movesOutQ_append, hde0, zero_add]
          exact hb.1
        · intro hov
          rw [movesInQ_append, hde0i, zero_add]
          exact hb.2 hov

/-! ## The top-level engine specification -/

/-- Every input's run satisfies: each move carries a SKU of the input, a
positive whole-unit quantity and the `take_from_other_main` gate; and per
SKU and cell the outflow/inflow bounds hold against the freshly built cell. -/
theorem recommend_spec (rows : List MatrixRowData) (mains : List (String × String))
    (p : ReallocationPolicyData) (hnud : KeysNodup mains) :
    (∀ m ∈ recommend_plan_lines rows mains p,
      ∃ e ∈ buildCells rows, MoveOkP p e.1 mains m) ∧
    (∀ s inner, dget (buildCells rows) s = some inner →
      ∀ k c, dget inner k = some c →
        movesOutQ (recommend_plan_lines rows mains p) s k ≤
          min (max c.gap 0) c.stock_at_anchor ∧
        (p.allow_overfill = false →
          movesInQ (recommend_plan_lines rows mains p) s k ≤
            max 0 (c.stdstock - c.stock_closing))) := by
  have hinv : ∀ e ∈ buildCells rows, InvCells p e.2 := by
    intro e he k c hkc
    obtain ⟨r, hr⟩ := buildCells_value rows e he (k, c) (mem_of_dget hkc)
    dsimp only at hr
    rw [hr]
    exact StInvP_rowCell p r
  have hzero : ∀ e ∈ buildCells rows, ∀ k c, dget e.2 k = some c →
      c.allocated_out = 0 ∧ c.allocated_in = 0 := by
    intro e he k c hkc
    obtain ⟨r, hr⟩ := buildCells_value rows e he (k, c) (mem_of_dget hkc)
    dsimp only at hr
    rw [hr]
    exact ⟨rowCell_out r, rowCell_in r⟩
  obtain ⟨d, hfold, hmok, hbound⟩ := runFold_spec p mains hnud (buildCells rows) []
    (keysNodup_buildCells rows) hinv hzero
  have hres : recommend_plan_lines rows mains p = d := by
    unfold recommend_plan_lines
    rw [hfold, List.nil_append]
  constructor
  · intro m hm
    rw [hres] at hm
    exact hmok m hm
  · intro s inner hs k c hkc
    rw [hres]
    exact hbound (s, inner) (mem_of_dget hs) k c hkc

/-! ## No-donor runs change nothing (support for C7) -/

theorem donorsIntraOf_nil (cells : List (Key × CellState)) (wh mc : String)
    (hall : ∀ kc ∈ cells, kc.2.available_surplus = 0) :
    donorsIntraOf cells wh mc = [] := by
  unfold donorsIntraOf
  have h : cells.filter
      (fun kc => decide (kc.1.1 = wh ∧ kc.1.2 ≠ mc ∧ kc.2.available_surplus > 0)) = [] := by
    rw [List.filter_eq_nil_iff]
    intro kc hkc
    simp only [decide_eq_true_eq, not_and]
    intro _ _
    rw [hall kc hkc]
    norm_num
  rw [h]
  rfl

theorem donorsInterOf_nil (cells : List (Key × CellState)) (wh : String)
    (hall : ∀ kc ∈ cells, kc.2.available_surplus = 0) :
    donorsInterOf cells wh = [] := by
  unfold donorsInterOf
  have h : cells.filter
      (fun kc => decide (kc.1.1 ≠ wh ∧ kc.2.available_surplus > 0)) = [] := by
    rw [List.filter_eq_nil_iff]
    intro kc hkc
    simp only [decide_eq_true_eq, not_and]
    intro _
    rw [hall kc hkc]
    norm_num
  rw [h]
  rfl

theorem fillTarget_no_donors (p : ReallocationPolicyData)
    (mains : List (String × String)) (s wh mc : String) (sr : ℚ) (st : EngSt)
    (h1 : donorsIntraOf st.cells wh mc = [])
    (h2 : donorsInterOf st.cells wh = []) :
    fillTarget p mains s wh mc sr st = st := by
  unfold fillTarget
  dsimp only
  rw [h1, h2]
  simp only [List.filter_nil, allocFromBucket]
  by_cases hsr : sr ≤ 0
  · rw [if_pos hsr]
  · rw [if_neg hsr, if_neg hsr]
    by_cases htk : p.take_from_other_main = true
    · rw [if_pos htk]
    · rw [if_neg htk]

theorem greedySku_noop (p : ReallocationPolicyData) (mains : List (String × String))
    (s : String) (st : EngSt)
    (hall : ∀ kc ∈ st.cells, kc.2.available_surplus = 0) :
    greedySku p mains s st = st := by
  unfold greedySku
  generalize sortDescBy (fun t => t.2.2) (collectShortages st.cells mains) = ts
  induction ts with
  | nil => rfl
  | cons t rest ih =>
    unfold targetsFold
    rw [fillTarget_no_donors p mains s t.1 t.2.1 t.2.2 st
      (donorsIntraOf_nil st.cells t.1 t.2.1 hall) (donorsInterOf_nil st.cells t.1 hall)]
    exact ih

theorem fsDonorScan_noop (p : ReallocationPolicyData)
    (mains : List (String × String)) (cells : List (Key × CellState))
    (hall : ∀ kc ∈ cells, kc.2.available_surplus = 0) :
    fsDonorScan p mains cells = ([], [], 0) := by
  unfold fsDonorScan
  suffices h : ∀ acc : List (Key × CellState) × List (Key × CellState) × ℚ,
      (cells.foldl
        (fun acc kc =>
          let a := kc.2.available_surplus
          if a ≤ 0 then acc
          else if dget mains kc.1.1 = some kc.1.2 then
            if p.take_from_other_main then (acc.1, acc.2.1 ++ [kc], acc.2.2 + a) else acc
          else (acc.1 ++ [kc], acc.2.1, acc.2.2 + a)) acc) = acc by
    exact h ([], [], 0)
  induction cells with
  | nil =>
    intro acc
    rfl
  | cons x t ih =>
    intro acc
    rw [List.foldl_cons]
    have hx : x.2.available_surplus = 0 := hall x (List.mem_cons_self _ _)
    have ht : ∀ kc ∈ t, kc.2.available_surplus = 0 :=
      fun kc hkc => hall kc (List.mem_cons_of_mem _ hkc)
    have hskip : (if x.2.available_surplus ≤ 0 then acc
        else if dget mains x.1.1 = some x.1.2 then
          if p.take_from_other_main then
            (acc.1, acc.2.1 ++ [x], acc.2.2 + x.2.available_surplus)
          else acc
        else (acc.1 ++ [x], acc.2.1, acc.2.2 + x.2.available_surplus)) = acc := by
      rw [if_pos (le_of_eq hx)]
    rw [hskip]
    exact ih ht acc

theorem fairShareSku_noop (p : ReallocationPolicyData)
    (mains : List (String × String)) (s : String) (st : EngSt)
    (hall : ∀ kc ∈ st.cells, kc.2.available_surplus = 0) :
    fairShareSku p mains s st = st := by
  unfold fairShareSku
  dsimp only
  by_cases hr0 : collectReceivers p st.cells mains = []
  · rw [if_pos hr0]
  · rw [if_neg hr0]
    rw [fsDonorScan_noop p mains st.cells hall]
    rw [if_pos (le_refl (0 : ℚ))]

theorem processSku_noop (p : ReallocationPolicyData) (mains : List (String × String))
    (s : String) (cells : List (Key × CellState)) (recs : List RecommendedMove)
    (hall : ∀ kc ∈ cells, kc.2.available_surplus = 0) :
    processSku p mains s cells recs = recs := by
  unfold processSku
  by_cases hm : p.fair_share_mode ≠ FairShareMode.off
  · rw [if_pos hm, fairShareSku_noop p mains s ⟨cells, recs⟩ hall]
  · rw [if_neg hm, greedySku_noop p mains s ⟨cells, recs⟩ hall]

/-! ## Claim theorems -/

section

attribute [local semireducible] Rat.add Rat.sub Rat.mul Rat.inv Rat.ofScientific

/-- C1: the claim says the greedy engine derives the shortage from the stock
figure selected by `policy.deficit_basis` and, for the cell with
`stock_at_anchor = 80`, `stdstock = 120`, `stock_closing = 140` and a willing
donor, emits a move under `deficit_basis = "start"`.  The code cannot: its
`ReallocationPolicyData` carries no `deficit_basis` field at all, the shortage
comes from the stored `gap` (here `-40`), and the fill is then blocked by the
overfill cap (`stock_closing 140 > stdstock 120`), so the engine emits no move
for this input under the repo test's policy — contradicting the claim (and the
repo's own test, which expects a 40-unit move under `"start"`). -/
theorem C1_deficit_basis_eval :
    recommend_plan_lines c1rows c1mains policyOff = [] := by
  decide

end

/-- C2: with `allow_overfill = false`, under either strategy, the total
quantity moved into any cell never exceeds `max 0 (stdstock - stock_closing)`
of that cell's built state (stock figures clamped at zero), so whenever the
cell receives anything, its projected stock stays within `stdstock`. -/
theorem C2_receiver_cap_thm (rows : List MatrixRowData)
    (mains : List (String × String)) (p : ReallocationPolicyData) (s : String)
    (inner : List (Key × CellState)) (k : Key) (c : CellState)
    (hnud : KeysNodup mains) (hov : p.allow_overfill = false)
    (hs : dget (buildCells rows) s = some inner) (hk : dget inner k = some c) :
    movesInQ (recommend_plan_lines rows mains p) s k ≤
      max 0 (c.stdstock - c.stock_closing) ∧
    (0 < movesInQ (recommend_plan_lines rows mains p) s k →
      c.stock_closing + movesInQ (recommend_plan_lines rows mains p) s k ≤
        c.stdstock) := by
  have h := ((recommend_spec rows mains p hnud).2 s inner hs k c hk).2 hov
  refine ⟨h, ?_⟩
  intro hpos
  by_cases hd : c.stdstock - c.stock_closing ≤ 0
  · rw [max_eq_left hd] at h
    linarith
  · rw [max_eq_right (le_of_lt (lt_of_not_le hd))] at h
    linarith

/-- C3: under either strategy the total quantity taken out of any cell never
exceeds `min (max 0 gap) (max 0 stock_at_anchor)` of its input row (the built
cell stores the clamped anchor), and a cell with non-positive anchor stock is
never the source of any move. -/
theorem C3_donor_conservation_thm (rows : List MatrixRowData)
    (mains : List (String × String)) (p : ReallocationPolicyData) (s : String)
    (inner : List (Key × CellState)) (k : Key) (c : CellState)
    (hnud : KeysNodup mains)
    (hs : dget (buildCells rows) s = some inner) (hk : dget inner k = some c) :
    movesOutQ (recommend_plan_lines rows mains p) s k ≤
      min (max c.gap 0) c.stock_at_anchor ∧
    (c.stock_at_anchor ≤ 0 → ∀ m ∈ recommend_plan_lines rows mains p,
      ¬ (m.sku_code = s ∧ m.from_warehouse = k.1 ∧ m.from_channel = k.2)) := by
  have hspec := recommend_spec rows mains p hnud
  have h1 := (hspec.2 s inner hs k c hk).1
  refine ⟨h1, ?_⟩
  rintro hanchor m hm ⟨hms, hmw, hmc⟩
  have hqpos : ∀ m2 ∈ recommend_plan_lines rows mains p, 0 ≤ m2.qty := by
    intro m2 hm2
    obtain ⟨e, _, _, ⟨n, hn, hqn⟩, _⟩ := hspec.1 m2 hm2
    rw [hqn]
    exact_mod_cast le_of_lt hn
  have hqm : 0 < m.qty := by
    obtain ⟨e, _, _, ⟨n, hn, hqn⟩, _⟩ := hspec.1 m hm
    rw [hqn]
    exact_mod_cast hn
  have hle := le_movesOutQ_of_mem _ s k hqpos hm hms hmw hmc
  have h2 : movesOutQ (recommend_plan_lines rows mains p) s k ≤ c.stock_at_anchor :=
    le_trans h1 (min_le_right _ _)
  linarith

/-- C5: with `take_from_other_main = false` no emitted move, under either
strategy, draws from a cell that is its own warehouse's configured main
channel. -/
theorem C5_policy_gate_thm (rows : List MatrixRowData)
    (mains : List (String × String)) (p : ReallocationPolicyData)
    (m : RecommendedMove) (hnud : KeysNodup mains)
    (htk : p.take_from_other_main = false)
    (hm : m ∈ recommend_plan_lines rows mains p) :
    ¬ dget mains m.from_warehouse = some m.from_channel := by
  obtain ⟨e, _, _, _, hgate⟩ := (recommend_spec rows mains p hnud).1 m hm
  exact hgate htk

/-- C7: when no cell of the grouped input offers positive available donor
surplus, `recommend_plan_lines` returns the empty list under either
strategy. -/
theorem C7_no_donor_thm (rows : List MatrixRowData)
    (mains : List (String × String)) (p : ReallocationPolicyData)
    (h : ∀ e ∈ buildCells rows, ∀ kc ∈ e.2, kc.2.available_surplus = 0) :
    recommend_plan_lines rows mains p = [] := by
  unfold recommend_plan_lines
  suffices hgen : ∀ (es : List (String × List (Key × CellState)))
      (recs : List RecommendedMove),
      (∀ e ∈ es, ∀ kc ∈ e.2, kc.2.available_surplus = 0) →
      es.foldl (fun recs e => processSku p mains e.1 e.2 recs) recs = recs by
    exact hgen (buildCells rows) [] h
  intro es
  induction es with
  | nil =>
    intro recs _
    rfl
  | cons e rest ih =>
    intro recs hall
    rw [List.foldl_cons,
      processSku_noop p mains e.1 e.2 recs (hall e (List.mem_cons_self _ _)),
      ih recs (fun x hx => hall x (List.mem_cons_of_mem _ hx))]

/-- C8: every emitted move's quantity is a strictly positive whole number of
move units, for every input and policy. -/
theorem C8_integer_qty_thm (rows : List MatrixRowData)
    (mains : List (String × String)) (p : ReallocationPolicyData)
    (m : RecommendedMove) (hnud : KeysNodup mains)
    (hm : m ∈ recommend_plan_lines rows mains p) :
    ∃ n : ℤ, 0 < n ∧ m.qty = (n : ℚ) := by
  obtain ⟨e, _, _, hq, _⟩ := (recommend_spec rows mains p hnud).1 m hm
  exact hq

/-- C9: `get_reallocation_policy` never raises: it returns the stored smallest
id row when one exists, creates and returns the model-default row (overfill
false, floor rounding, no take-from-other-main, fair share off, deficit basis
"closing") when the table exists but is empty, and returns the in-memory
default when the table is unavailable; `update_reallocation_policy` succeeds
exactly when the table is available. -/
theorem C9_policy_store_thm :
    (∀ (db : PolicyTable) (now : Nat),
      ∃ r, get_reallocation_policy db now = Except.ok r) ∧
    (∀ now : Nat, get_reallocation_policy none now =
      Except.ok (DEFAULT_POLICY, none)) ∧
    (∀ now : Nat, get_reallocation_policy (some []) now =
      Except.ok (record_to_data (mkDefaultRecord now), some [mkDefaultRecord now]) ∧
      mkDefaultRecord now = ⟨1, false, RoundingMode.floor, false, FairShareMode.off,
        "closing", some now, none⟩) ∧
    (∀ (recs : List PolicyRecord) (r : PolicyRecord) (now : Nat),
      firstById recs = some r →
      get_reallocation_policy (some recs) now =
        Except.ok (record_to_data r, some recs)) ∧
    (∀ (db : PolicyTable) (now : Nat) (a : Bool) (b : RoundingMode) (c : Bool)
      (d : FairShareMode) (e : Option String),
      (update_reallocation_policy db now a b c d e).isOk = true ↔ db ≠ none) := by
  refine ⟨?_, ?_, ?_, ?_, ?_⟩
  · intro db now
    cases db with
    | none => exact ⟨(DEFAULT_POLICY, none), rfl⟩
    | some recs =>
      cases hf : firstById recs with
      | none =>
        exact ⟨(record_to_data (mkDefaultRecord now), some (recs ++ [mkDefaultRecord now])),
          by simp only [get_reallocation_policy, ensure_policy_record, hf]⟩
      | some r =>
        exact ⟨(record_to_data r, some recs),
          by simp only [get_reallocation_policy, ensure_policy_record, hf]⟩
  · intro now
    rfl
  · intro now
    exact ⟨rfl, rfl⟩
  · intro recs r now hf
    simp only [get_reallocation_policy, ensure_policy_record, hf]
  · intro db now a b c d e
    cases db with
    | none =>
      simp [update_reallocation_policy, ensure_policy_record, Except.isOk, Except.toBool]
    | some recs =>
      cases hf : firstById recs with
      | none =>
        simp [update_reallocation_policy, ensure_policy_record, hf, Except.isOk,
          Except.toBool]
      | some r =>
        simp [update_reallocation_policy, ensure_policy_record, hf, Except.isOk,
          Except.toBool]
section

attribute [local semireducible] Rat.add Rat.sub Rat.mul Rat.inv Rat.ofScientific

set_option maxRecDepth 100000

/-- C6: the claimed fair-share monotonicity fails in the code.  The two
inputs share the receiver cells `WA`/`WB` exactly; the second offers strictly
more total donor surplus (17/2 instead of 4); yet receiver `WA`'s total
allocation drops from 3 units to 0: the bisection spreads the larger surplus
across the sub-unit donors, each per-donor share rounds down to zero whole
units, and the reconciliation pass then wipes the plan. -/
theorem C6_monotonicity_fails_eval :
    totalAvailOf c6rowsSmall < totalAvailOf c6rowsLarge ∧
    dget ((dget (buildCells c6rowsSmall) "S").getD []) ("WA", "m") =
      dget ((dget (buildCells c6rowsLarge) "S").getD []) ("WA", "m") ∧
    dget ((dget (buildCells c6rowsSmall) "S").getD []) ("WB", "m") =
      dget ((dget (buildCells c6rowsLarge) "S").getD []) ("WB", "m") ∧
    movesInQ (recommend_plan_lines c6rowsSmall c6mains policyFS) "S" ("WA", "m") = 3 ∧
    movesInQ (recommend_plan_lines c6rowsLarge c6mains policyFS) "S" ("WA", "m") = 0 :=
  ⟨by decide, by decide, by decide, by decide, by decide⟩

theorem C2_witness :
    movesInQ (recommend_plan_lines c10rowsDup c10mains policyOff) "S1" ("W1", "main") ≤
      max 0 (c10cellMain1.stdstock - c10cellMain1.stock_closing) ∧
    (0 < movesInQ (recommend_plan_lines c10rowsDup c10mains policyOff) "S1" ("W1", "main") →
      c10cellMain1.stock_closing +
        movesInQ (recommend_plan_lines c10rowsDup c10mains policyOff) "S1" ("W1", "main") ≤
        c10cellMain1.stdstock) :=
  C2_receiver_cap_thm c10rowsDup c10mains policyOff "S1" c10innerS1 ("W1", "main")
    c10cellMain1 (by unfold KeysNodup; decide) rfl (by decide) (by decide)

theorem C3_witness :
    movesOutQ (recommend_plan_lines c10rowsDup c10mains policyOff) "S1" ("W1", "sec") ≤
      min (max c10cellSec1.gap 0) c10cellSec1.stock_at_anchor ∧
    (c10cellSec1.stock_at_anchor ≤ 0 →
      ∀ m ∈ recommend_plan_lines c10rowsDup c10mains policyOff,
        ¬ (m.sku_code = "S1" ∧ m.from_warehouse = "W1" ∧ m.from_channel = "sec")) :=
  C3_donor_conservation_thm c10rowsDup c10mains policyOff "S1" c10innerS1 ("W1", "sec")
    c10cellSec1 (by unfold KeysNodup; decide) (by decide) (by decide)

theorem C5_witness :
    ¬ dget c10mains c10moveS1.from_warehouse = some c10moveS1.from_channel :=
  C5_policy_gate_thm c10rowsDup c10mains policyOff c10moveS1 (by unfold KeysNodup; decide) rfl
    (by decide)

theorem C7_witness :
    recommend_plan_lines c7rows c10mains policyOff = [] :=
  C7_no_donor_thm c7rows c10mains policyOff (by decide)

theorem C8_witness :
    ∃ n : ℤ, 0 < n ∧ c10moveS1.qty = (n : ℚ) :=
  C8_integer_qty_thm c10rowsDup c10mains policyOff c10moveS1 (by unfold KeysNodup; decide)
    (by decide)

theorem C9_witness :
    get_reallocation_policy (some [mkDefaultRecord 5]) 7 =
      Except.ok (record_to_data (mkDefaultRecord 5), some [mkDefaultRecord 5]) :=
  C9_policy_store_thm.2.2.2.1 [mkDefaultRecord 5] (mkDefaultRecord 5) 7 rfl

end

/-! ## Donor pools and the blocked early exit (support for C4) -/

theorem donorsIntraOf_avail (cells : List (Key × CellState)) (wh mc : String)
    (d : Key) (hnud : KeysNodup cells) (h : d ∈ donorsIntraOf cells wh mc) :
    ∃ dc, dget cells d = some dc ∧ 0 < dc.available_surplus := by
  unfold donorsIntraOf at h
  rcases List.mem_map.mp h with ⟨kc, hkc, rfl⟩
  rw [mem_sortDescBy] at hkc
  have hmem := (List.mem_filter.mp hkc).1
  have h2 := (List.mem_filter.mp hkc).2
  simp only [decide_eq_true_eq] at h2
  exact ⟨kc.2, dget_mem_of_nodup cells hnud hmem, h2.2.2⟩

theorem donorsInterOf_avail (cells : List (Key × CellState)) (wh : String)
    (d : Key) (hnud : KeysNodup cells) (h : d ∈ donorsInterOf cells wh) :
    ∃ dc, dget cells d = some dc ∧ 0 < dc.available_surplus := by
  unfold donorsInterOf at h
  rcases List.mem_map.mp h with ⟨kc, hkc, rfl⟩
  rw [mem_sortDescBy] at hkc
  have hmem := (List.mem_filter.mp hkc).1
  have h2 := (List.mem_filter.mp hkc).2
  simp only [decide_eq_true_eq] at h2
  exact ⟨kc.2, dget_mem_of_nodup cells hnud hmem, h2.2⟩

/-- C4: with overfill disallowed and the receiver's remaining capacity already
exhausted, (a) the bucket loop aborts with the `blocked` flag the moment any
donor with positive surplus is considered, returning the state untouched,
(b) the whole fill of that target leaves the state untouched — no later donor
and no later bucket is consulted — and (c) the target loop still proceeds to
the remaining shortage targets of the SKU exactly as if the blocked target had
been served. -/
theorem C4_blocked_abort_thm (p : ReallocationPolicyData)
    (mains : List (String × String)) (sku wh mc : String) (st : EngSt) (sr : ℚ)
    (recvSt : CellState) (hnud : KeysNodup st.cells)
    (hov : p.allow_overfill = false)
    (hrecv : dget st.cells (wh, mc) = some recvSt)
    (hcap : recvSt.remaining_capacity ≤ 0) (hsr : 0 < sr) :
    (∀ (reason : String) (d : Key) (rest : List Key) (dc : CellState),
      dget st.cells d = some dc → 0 < dc.available_surplus →
      allocFromBucket p sku wh mc reason (d :: rest) st sr = (false, st, sr)) ∧
    fillTarget p mains sku wh mc sr st = st ∧
    (∀ ts, targetsFold p mains sku ((wh, mc, sr) :: ts) st =
      targetsFold p mains sku ts st) := by
  have habort : ∀ (reason : String) (d : Key) (rest : List Key) (dc : CellState),
      dget st.cells d = some dc → 0 < dc.available_surplus →
      allocFromBucket p sku wh mc reason (d :: rest) st sr = (false, st, sr) := by
    intro reason d rest dc hd hdc
    unfold allocFromBucket
    rw [if_neg (not_le.mpr hsr), hd, hrecv]
    dsimp only
    rw [if_neg (not_le.mpr hdc), if_pos ⟨hov, hcap⟩]
  have hfill : fillTarget p mains sku wh mc sr st = st := by
    unfold fillTarget
    dsimp only
    cases hIntra : donorsIntraOf st.cells wh mc with
    | cons d rest =>
      obtain ⟨dc, hd, hdc⟩ := donorsIntraOf_avail st.cells wh mc d hnud
        (hIntra ▸ List.mem_cons_self d rest)
      rw [habort "fill main channel (intra)" d rest dc hd hdc]
    | nil =>
      simp only [allocFromBucket]
      rw [if_neg (not_le.mpr hsr)]
      cases hNm : (donorsInterOf st.cells wh).filter
          (fun k => ¬ dget mains k.1 = some k.2) with
      | cons d rest =>
        have hdm : d ∈ donorsInterOf st.cells wh := by
          have hmem : d ∈ (donorsInterOf st.cells wh).filter
              (fun k => ¬ dget mains k.1 = some k.2) := by
            rw [hNm]
            exact List.mem_cons_self d rest
          exact (List.mem_filter.mp hmem).1
        obtain ⟨dc, hd, hdc⟩ := donorsInterOf_avail st.cells wh d hnud hdm
        rw [habort "fill main channel (inter non-main)" d rest dc hd hdc]
      | nil =>
        simp only [allocFromBucket]
        rw [if_neg (not_le.mpr hsr)]
        by_cases htk : p.take_from_other_main
        · rw [if_pos htk]
          cases hM : (donorsInterOf st.cells wh).filter
              (fun k => dget mains k.1 = some k.2) with
          | cons d rest =>
            have hdm : d ∈ donorsInterOf st.cells wh := by
              have hmem : d ∈ (donorsInterOf st.cells wh).filter
                  (fun k => dget mains k.1 = some k.2) := by
                rw [hM]
                exact List.mem_cons_self d rest
              exact (List.mem_filter.mp hmem).1
            obtain ⟨dc, hd, hdc⟩ := donorsInterOf_avail st.cells wh d hnud hdm
            rw [habort "fill main channel (inter main)" d rest dc hd hdc]
          | nil => rfl
        · rw [if_neg htk]
  refine ⟨habort, hfill, ?_⟩
  intro ts
  show targetsFold p mains sku ts (fillTarget p mains sku wh mc sr st) =
    targetsFold p mains sku ts st
  rw [hfill]

/-! ## In-place overwrite of a duplicated row (support for C10) -/

theorem dput_dput_same {κ α : Type} [DecidableEq κ] (l : List (κ × α))
    (k : κ) (v1 v2 : α) : dput (dput l k v1) k v2 = dput l k v2 := by
  induction l with
  | nil => simp [dput]
  | cons hd t ih =>
    by_cases hk : hd.1 = k
    · simp [dput, hk]
    · simp [dput, hk, ih]

theorem dput_comm_present {κ α : Type} [DecidableEq κ] (l : List (κ × α))
    {k1 k2 : κ} (v1 v2 w : α) (hp : dget l k1 = some w) (h : k1 ≠ k2) :
    dput (dput l k1 v1) k2 v2 = dput (dput l k2 v2) k1 v1 := by
  induction l with
  | nil => exact absurd hp (by simp [dget])
  | cons hd t ih =>
    by_cases h1 : hd.1 = k1
    · have h2 : ¬ hd.1 = k2 := by rw [h1]; exact h
      simp [dput, h1, h2, h, Ne.symm h]
    · by_cases h2 : hd.1 = k2
      · simp [dput, h1, h2, h, Ne.symm h]
      · have hp2 : dget t k1 = some w := by simpa [dget, h1] using hp
        simp [dput, h1, h2, ih hp2]

theorem insertRow_collapse (M : List (String × List (Key × CellState)))
    (r1 r2 : MatrixRowData) (hkey : rowKeyOf r1 = rowKeyOf r2) :
    insertRow (insertRow M r1) r2 = insertRow M r2 := by
  simp only [rowKeyOf, Prod.mk.injEq] at hkey
  obtain ⟨hs, hw, hc⟩ := hkey
  unfold insertRow
  dsimp only
  rw [hs, hw, hc, dget_dput_self]
  simp only [Option.getD_some]
  rw [dput_dput_same, dput_dput_same]

theorem presence_insertRow (M : List (String × List (Key × CellState)))
    (y r2 : MatrixRowData) (hy : rowKeyOf y ≠ rowKeyOf r2)
    (hp : ∃ inner, dget M r2.sku_code = some inner ∧
      ∃ c, dget inner (r2.warehouse_name, r2.channel) = some c) :
    ∃ inner, dget (insertRow M y) r2.sku_code = some inner ∧
      ∃ c, dget inner (r2.warehouse_name, r2.channel) = some c := by
  obtain ⟨inner, hin, c, hc⟩ := hp
  unfold insertRow
  dsimp only
  by_cases hs : y.sku_code = r2.sku_code
  · have hyk : ((y.warehouse_name, y.channel) : Key) ≠
        (r2.warehouse_name, r2.channel) := by
      intro he
      rw [Prod.mk.injEq] at he
      exact hy (by simp only [rowKeyOf, hs, he.1, he.2])
    rw [hs, hin]
    simp only [Option.getD_some]
    exact ⟨dput inner (y.warehouse_name, y.channel) (rowCell y),
      dget_dput_self _ _ _,
      c, by rw [dget_dput_ne _ _ (Ne.symm hyk)]; exact hc⟩
  · exact ⟨inner, by rw [dget_dput_ne _ _ (Ne.symm hs)]; exact hin, c, hc⟩

theorem insertRow_comm_present (M : List (String × List (Key × CellState)))
    (a b : MatrixRowData) (h : rowKeyOf a ≠ rowKeyOf b)
    (hp : ∃ inner, dget M b.sku_code = some inner ∧
      ∃ c, dget inner (b.warehouse_name, b.channel) = some c) :
    insertRow (insertRow M a) b = insertRow (insertRow M b) a := by
  obtain ⟨inner, hin, c, hc⟩ := hp
  by_cases hs : a.sku_code = b.sku_code
  · have hk : ((a.warehouse_name, a.channel) : Key) ≠
        (b.warehouse_name, b.channel) := by
      intro he
      rw [Prod.mk.injEq] at he
      exact h (by simp only [rowKeyOf, hs, he.1, he.2])
    unfold insertRow
    dsimp only
    rw [hs, dget_dput_self, dget_dput_self, hin]
    simp only [Option.getD_some]
    rw [dput_dput_same, dput_dput_same]
    rw [← dput_comm_present inner (rowCell b) (rowCell a) c hc (Ne.symm hk)]
  · unfold insertRow
    dsimp only
    rw [dget_dput_ne M _ (Ne.symm hs), dget_dput_ne M _ hs]
    exact (dput_comm_present M _ _ inner hin (Ne.symm hs)).symm

theorem foldl_insertRow_dup (r2 : MatrixRowData) :
    ∀ (ys : List MatrixRowData)
      (M1 M2 : List (String × List (Key × CellState))),
      (∀ y ∈ ys, rowKeyOf y ≠ rowKeyOf r2) →
      (∃ inner, dget M1 r2.sku_code = some inner ∧
        ∃ c, dget inner (r2.warehouse_name, r2.channel) = some c) →
      insertRow M1 r2 = M2 →
      insertRow (ys.foldl insertRow M1) r2 = ys.foldl insertRow M2 := by
  intro ys
  induction ys with
  | nil =>
    intro M1 M2 _ _ heq
    exact heq
  | cons y t ih =>
    intro M1 M2 hys hp heq
    rw [List.foldl_cons, List.foldl_cons]
    refine ih (insertRow M1 y) (insertRow M2 y)
      (fun z hz => hys z (List.mem_cons_of_mem _ hz))
      (presence_insertRow M1 y r2 (hys y (List.mem_cons_self _ _)) hp) ?_
    rw [insertRow_comm_present M1 y r2 (hys y (List.mem_cons_self _ _)) hp, heq]

/-- C10 (amended): when an input sequence holds two rows with the same
`(sku_code, warehouse_name, channel)` key and no row between them reuses that
key, the engine's result equals the result for the sequence in which the
earlier duplicate is replaced, at its original position, by the later row,
the later occurrence being dropped — the last row's values win and its
values are never summed or merged with the earlier row's, but the earlier
row's *position* (hence the emission order over SKUs) is kept, so the claim's
"keep only the last such row" form is false. -/
theorem C10_last_write_wins_thm (xs ys zs : List MatrixRowData)
    (r1 r2 : MatrixRowData) (mains : List (String × String))
    (p : ReallocationPolicyData) (hkey : rowKeyOf r1 = rowKeyOf r2)
    (hys : ∀ y ∈ ys, rowKeyOf y ≠ rowKeyOf r2) :
    recommend_plan_lines (xs ++ r1 :: (ys ++ r2 :: zs)) mains p =
      recommend_plan_lines (xs ++ r2 :: (ys ++ zs)) mains p := by
  have hb : buildCells (xs ++ r1 :: (ys ++ r2 :: zs)) =
      buildCells (xs ++ r2 :: (ys ++ zs)) := by
    unfold buildCells
    simp only [List.foldl_append, List.foldl_cons]
    have hkey2 := hkey
    simp only [rowKeyOf, Prod.mk.injEq] at hkey2
    obtain ⟨hs, hw, hc⟩ := hkey2
    have hpres : ∃ inner,
        dget (insertRow (xs.foldl insertRow []) r1) r2.sku_code = some inner ∧
        ∃ c, dget inner (r2.warehouse_name, r2.channel) = some c := by
      unfold insertRow
      dsimp only
      rw [← hs, ← hw, ← hc]
      exact ⟨_, dget_dput_self _ _ _, rowCell r1, dget_dput_self _ _ _⟩
    rw [foldl_insertRow_dup r2 ys (insertRow (xs.foldl insertRow []) r1)
      (insertRow (xs.foldl insertRow []) r2) hys hpres
      (insertRow_collapse (xs.foldl insertRow []) r1 r2 hkey)]
  unfold recommend_plan_lines
  rw [hb]

section

attribute [local semireducible] Rat.add Rat.sub Rat.mul Rat.inv Rat.ofScientific

set_option maxRecDepth 100000

theorem C4_witness :
    fillTarget policyOff c1mains "SKU-1" "W1" "main" 40 ⟨c1inner, []⟩ =
      ⟨c1inner, []⟩ :=
  (C4_blocked_abort_thm policyOff c1mains "SKU-1" "W1" "main" ⟨c1inner, []⟩ 40
      c1cellMain (by unfold KeysNodup; decide) rfl (by decide) (by decide)
      (by decide)).2.1

/-- C10's claimed form is false: dropping the earlier duplicate row (instead
of overwriting it in place) changes the SKU iteration order of the output. -/
theorem C10_counterexample :
    ¬ recommend_plan_lines c10rowsDup c10mains policyOff =
      recommend_plan_lines c10rowsLast c10mains policyOff := by
  decide

theorem C10_witness :
    recommend_plan_lines
        ([] ++ mkRow "S1" "W1" "sec" 7 7 0 7 ::
          ([mkRow "S2" "W1" "sec" 50 50 0 50] ++
            mkRow "S1" "W1" "sec" 50 50 0 50 :: [])) c10mains policyOff =
      recommend_plan_lines
        ([] ++ mkRow "S1" "W1" "sec" 50 50 0 50 ::
          ([mkRow "S2" "W1" "sec" 50 50 0 50] ++ [])) c10mains policyOff :=
  C10_last_write_wins_thm [] [mkRow "S2" "W1" "sec" 50 50 0 50] []
    (mkRow "S1" "W1" "sec" 7 7 0 7) (mkRow "S1" "W1" "sec" 50 50 0 50)
    c10mains policyOff rfl (by decide)

end

end PSI
